import Mathlib

set_option maxHeartbeats 1000000
set_option maxRecDepth 8192

/-!
Verification of the iCalendar VTODO codec in `src/src-tauri/src/lib.rs`
(repository 2DO).  Program text is modelled as `List Char`, i.e. sequences of
Unicode scalar values, with explicit UTF-8 byte accounting where the Rust code
slices strings at byte indices.  Fallible operations return `Option`; a `none`
arising from a byte slice models a Rust panic (byte index not on a char
boundary).  File I/O, the random UUID source and the wall clock are the
I/O boundary of the core: they are passed in as explicit parameters.
-/

namespace ICal

/-- Characters of a string literal; program text is modelled as `List Char`. -/
def str (s : String) : List Char := s.toList

/-- Rust `char::is_control`: the Unicode Cc category, U+0000..U+001F and U+007F..U+009F. -/
def isControl (c : Char) : Bool := c.toNat < 32 || (127 ≤ c.toNat && c.toNat ≤ 159)

/-- Rust `char::is_whitespace`: the Unicode White_Space property. -/
def isWhite (c : Char) : Bool :=
  let n := c.toNat
  (9 ≤ n && n ≤ 13) || n == 32 || n == 0x85 || n == 0xA0 || n == 0x1680 ||
  (0x2000 ≤ n && n ≤ 0x200A) || n == 0x2028 || n == 0x2029 || n == 0x202F ||
  n == 0x205F || n == 0x3000

/-- Remove trailing White_Space characters. -/
def dropTrailWs (s : List Char) : List Char :=
  (s.reverse.dropWhile isWhite).reverse

/-- Rust `str::trim`: strip leading and trailing White_Space. -/
def rustTrim (s : List Char) : List Char :=
  dropTrailWs (s.dropWhile isWhite)

/-- Number of bytes of the UTF-8 encoding of a scalar value (Rust `char::len_utf8`). -/
def charBytes (c : Char) : Nat :=
  if c.toNat < 0x80 then 1 else if c.toNat < 0x800 then 2
  else if c.toNat < 0x10000 then 3 else 4

/-- Rust `str::len`: length in UTF-8 bytes. -/
def byteLength (s : List Char) : Nat := (s.map charBytes).sum

/-- Drop the first `n` bytes; `none` when `n` is not on a char boundary or past
the end (a Rust byte-slice there panics). -/
def byteDrop : Nat → List Char → Option (List Char)
  | 0, s => some s
  | _+1, [] => none
  | n+1, c :: rest =>
    if charBytes c ≤ n+1 then byteDrop (n+1 - charBytes c) rest else none

/-- Take the first `n` bytes; `none` when `n` is not on a char boundary or past
the end (a Rust byte-slice there panics). -/
def byteTake : Nat → List Char → Option (List Char)
  | 0, _ => some []
  | _+1, [] => none
  | n+1, c :: rest =>
    if charBytes c ≤ n+1 then (byteTake (n+1 - charBytes c) rest).map (fun l => c :: l)
    else none

/-- Rust byte slice `&s[a..b]` (with `a ≤ b`); `none` models the boundary panic. -/
def byteSlice (a b : Nat) (s : List Char) : Option (List Char) :=
  (byteDrop a s).bind (byteTake (b - a))

/-- One pass of Rust `str::replace`, on a nonempty pattern `p :: ps`:
leftmost-first, non-overlapping, no rescanning of the replacement.
Implemented with explicit fuel (an upper bound on the number of steps,
`s.length` suffices) so that the definition is structurally recursive;
`replaceL_nil` and `replaceL_cons` below recover the natural equations. -/
def replaceLAux (p : Char) (ps rep : List Char) : Nat → List Char → List Char
  | 0, s => s
  | _+1, [] => []
  | fuel+1, c :: rest =>
    if c = p ∧ ps.isPrefixOf rest then
      rep ++ replaceLAux p ps rep fuel (rest.drop ps.length)
    else
      c :: replaceLAux p ps rep fuel rest

/-- Rust `str::replace` with pattern `p :: ps` and replacement `rep`. -/
def replaceL (p : Char) (ps rep : List Char) (s : List Char) : List Char :=
  replaceLAux p ps rep s.length s

/-- Helper function of the escape codec in `escape_ical_text` (`lib.rs` 492-502),
translated replace by replace in source order. -/
def escape_ical_text (text : List Char) : List Char :=
  let s1 := replaceL '\\' [] ['\\', '\\'] text
  let s2 := replaceL ';' [] ['\\', ';'] s1
  let s3 := replaceL ',' [] ['\\', ','] s2
  let s4 := replaceL '\n' [] ['\\', 'n'] s3
  let s5 := replaceL '\r' [] [] s4
  let s6 := replaceL (Char.ofNat 0) [] [] s5
  s6.filter (fun c => !(isControl c) || c == '\n' || c == '\t')

/-- One iteration body of the backslash-normalisation loop in
`unescape_ical_text` (`lib.rs` 508-521). -/
def collapseStep (s : List Char) : List Char := replaceL '\\' ['\\'] ['\\'] s

/-- The Rust loop runs `collapseStep` until a fixpoint.  Every productive
iteration strictly shortens the string, so `s.length + 1` iterations always
reach the fixpoint; the fuel of `collapseLoop` is therefore never exhausted. -/
def collapseLoop : Nat → List Char → List Char
  | 0, s => s
  | fuel+1, s =>
    let collapsed := collapseStep s
    if collapsed = s then s else collapseLoop fuel collapsed

/-- Backslash-normalisation loop of `unescape_ical_text`. -/
def collapseBackslashes (s : List Char) : List Char := collapseLoop (s.length + 1) s

/-- Helper to unescape iCalendar text, from `unescape_ical_text`
(`lib.rs` 508-521), translated replace by replace in source order. -/
def unescape_ical_text (text : List Char) : List Char :=
  let s0 := collapseBackslashes text
  let s1 := replaceL '\\' ['n'] ['\n'] s0
  let s2 := replaceL '\\' ['N'] ['\n'] s1
  let s3 := replaceL '\\' [';'] [';'] s2
  replaceL '\\' [','] [','] s3


/-- ASCII digit character for a value below ten. -/
def digitChar (n : Nat) : Char := Char.ofNat (48 + n)

/-- ASCII digit test (Rust numeric parsing accepts only ASCII digits). -/
def isDigitChar (c : Char) : Bool := 48 ≤ c.toNat && c.toNat ≤ 57

/-- Value of an ASCII digit character. -/
def digitVal (c : Char) : Nat := c.toNat - 48

/-- Decimal digits of a natural number, most significant first.  Fuelled so the
definition is structurally recursive; `n + 1` steps always suffice since the
argument shrinks by a factor of ten each step.  `natDigits_lt` and
`natDigits_ge` below recover the natural equations. -/
def natDigitsAux : Nat → Nat → List Char
  | 0, _ => []
  | fuel+1, n =>
    if n < 10 then [digitChar n]
    else natDigitsAux fuel (n / 10) ++ [digitChar (n % 10)]

/-- Decimal digit string of a natural number. -/
def natDigits (n : Nat) : List Char := natDigitsAux (n + 1) n

/-- Zero padding to a minimum width, as in Rust format specifiers `{:04}`/`{:02}`. -/
def padZeros (w : Nat) (s : List Char) : List Char := List.replicate (w - s.length) '0' ++ s

/-- Rust `format!("{:04}", n)` for nonnegative `n`. -/
def fmt4 (n : Nat) : List Char := padZeros 4 (natDigits n)

/-- Rust `format!("{:02}", n)` for nonnegative `n`. -/
def fmt2 (n : Nat) : List Char := padZeros 2 (natDigits n)

/-- Accumulating decimal reader: fails on the first non-digit. -/
def parseDigitsAux : Nat → List Char → Option Nat
  | acc, [] => some acc
  | acc, c :: rest =>
    if isDigitChar c then parseDigitsAux (10 * acc + digitVal c) rest else none

/-- Read a nonempty all-digit string (Rust numeric parsing rejects an empty
digit run). -/
def parseDigits (s : List Char) : Option Nat :=
  if s = [] then none else parseDigitsAux 0 s

/-- Rust `str::parse::<u32>`: optional plus sign, then one or more ASCII
digits.  The overflow check cannot fire here: every call site parses at most
four digits. -/
def parse_u32 : List Char → Option Nat
  | [] => none
  | c :: rest => if c = '+' then parseDigits rest else parseDigits (c :: rest)

/-- Rust `str::parse::<i32>`: optional sign, then one or more ASCII digits.
The overflow check cannot fire here: every call site parses at most four
digits. -/
def parse_i32 : List Char → Option Int
  | [] => none
  | c :: rest =>
    if c = '+' then (parseDigits rest).map (fun n => (n : Int))
    else if c = '-' then (parseDigits rest).map (fun n => -(n : Int))
    else (parseDigits (c :: rest)).map (fun n => (n : Int))

/-- Value of a digit string, most significant first (specification device for
the parse lemmas). -/
def valDigits (l : List Char) : Nat := l.foldl (fun a c => 10 * a + digitVal c) 0

/-- Proleptic Gregorian leap-year rule used by chrono. -/
def isLeapYear (y : Int) : Bool := y % 4 == 0 && (y % 100 != 0 || y % 400 == 0)

/-- Days in a month of the proleptic Gregorian calendar. -/
def daysInMonth (y : Int) (m : Nat) : Nat :=
  if m = 2 then (if isLeapYear y then 29 else 28)
  else if m = 4 ∨ m = 6 ∨ m = 9 ∨ m = 11 then 30
  else 31

/-- A chrono `NaiveDate`. -/
structure RDate where
  year : Int
  month : Nat
  day : Nat
deriving DecidableEq

/-- chrono `NaiveDate::from_ymd_opt`.  The ±262143 year-range check of chrono
cannot fire here: every caller passes a year parsed from at most four digits. -/
def from_ymd_opt (y : Int) (m d : Nat) : Option RDate :=
  if 1 ≤ m ∧ m ≤ 12 ∧ 1 ≤ d ∧ d ≤ daysInMonth y m then some ⟨y, m, d⟩ else none

/-- A chrono `NaiveDateTime` (the codec never uses sub-second precision). -/
structure RDateTime where
  date : RDate
  hour : Nat
  minute : Nat
  second : Nat
deriving DecidableEq

/-- chrono `NaiveDate::and_hms_opt`. -/
def and_hms_opt (d : RDate) (h mi s : Nat) : Option RDateTime :=
  if h ≤ 23 ∧ mi ≤ 59 ∧ s ≤ 59 then some ⟨d, h, mi, s⟩ else none

/-- chrono `%Y`: the year zero-padded to four digits, with a sign when negative. -/
def fmtYear (y : Int) : List Char :=
  if y < 0 then '-' :: fmt4 (-y).toNat else fmt4 y.toNat

/-- chrono format `%Y-%m-%d`. -/
def fmtIsoDate (d : RDate) : List Char :=
  fmtYear d.year ++ '-' :: fmt2 d.month ++ '-' :: fmt2 d.day

/-- chrono format `%Y-%m-%dT%H:%M:%S`. -/
def fmtIsoDateTime (dt : RDateTime) : List Char :=
  fmtIsoDate dt.date ++ 'T' :: fmt2 dt.hour ++ ':' :: fmt2 dt.minute ++ ':' :: fmt2 dt.second

/-- The task record exchanged with the frontend (`lib.rs` 16-29). -/
structure Todo where
  id : List Char
  title : List Char
  description : List Char
  completed : Bool
  priority : List Char
  category : Option (List Char)
  due_date : Option (List Char)
  created_at : Option (List Char)
  calendar_name : List Char
deriving DecidableEq

/-- The mutable locals of `parse_vtodo_from_lines` (`lib.rs` 247-254). -/
structure PState where
  id : List Char
  title : List Char
  description : List Char
  completed : Bool
  priority : List Char
  category : Option (List Char)
  due_date : Option (List Char)
  created_at : Option (List Char)
deriving DecidableEq

/-- Initial values of the parser locals (`lib.rs` 247-254). -/
def initPState : PState :=
  ⟨[], [], [], false, str "medium", none, none, none⟩

/-- Rust `line.find(a colon)` plus the byte slices `&line[..pos]` and
`&line[pos + 1..]`: the colon is ASCII, so the byte split coincides with the
character split and cannot panic. -/
def splitAtColon : List Char → Option (List Char × List Char)
  | [] => none
  | c :: rest =>
    if c = ':' then some ([], rest)
    else (splitAtColon rest).map (fun p => (c :: p.1, p.2))

/-- Portion of the property name before the first semicolon (`lib.rs` 267-271);
the whole name when it has none. -/
def beforeSemicolon : List Char → List Char
  | [] => []
  | c :: rest => if c = ';' then [] else c :: beforeSemicolon rest

/-- The DUE branch (`lib.rs` 291-305): slice the first eight bytes, then nested
year/month/day parses.  A failed parse leaves the record unchanged; a slice off
a char boundary is a panic (`none`). -/
def handleDue (st : PState) (property_value : List Char) : Option PState :=
  if 8 ≤ byteLength property_value then
    match byteSlice 0 8 property_value with
    | none => none
    | some date_part =>
      match byteSlice 0 4 date_part with
      | none => none
      | some ys =>
        match parse_i32 ys with
        | none => some st
        | some year =>
          match byteSlice 4 6 date_part with
          | none => none
          | some ms =>
            match parse_u32 ms with
            | none => some st
            | some month =>
              match byteSlice 6 8 date_part with
              | none => none
              | some ds =>
                match parse_u32 ds with
                | none => some st
                | some day =>
                  match from_ymd_opt year month day with
                  | none => some st
                  | some date => some { st with due_date := some (fmtIsoDate date) }
  else some st

/-- The CREATED/DTSTAMP branch (`lib.rs` 306-371): a date-time shape (length at
least 15 bytes and containing a T), a date-only shape (exactly 8 bytes), or a
skip.  Failed parses leave the record unchanged; slices off a char boundary are
panics (`none`). -/
def handleCreated (st : PState) (property_value : List Char) : Option PState :=
  if 15 ≤ byteLength property_value ∧ property_value.contains 'T' = true then
    match byteSlice 0 8 property_value with
    | none => none
    | some date_part =>
      match byteSlice 9 15 property_value with
      | none => none
      | some time_part =>
        match byteSlice 0 4 date_part with
        | none => none
        | some ys =>
          match parse_i32 ys with
          | none => some st
          | some year =>
            match byteSlice 4 6 date_part with
            | none => none
            | some ms =>
              match parse_u32 ms with
              | none => some st
              | some month =>
                match byteSlice 6 8 date_part with
                | none => none
                | some ds =>
                  match parse_u32 ds with
                  | none => some st
                  | some day =>
                    match byteSlice 0 2 time_part with
                    | none => none
                    | some hs =>
                      match parse_u32 hs with
                      | none => some st
                      | some hour =>
                        match byteSlice 2 4 time_part with
                        | none => none
                        | some mins =>
                          match parse_u32 mins with
                          | none => some st
                          | some minute =>
                            match byteSlice 4 6 time_part with
                            | none => none
                            | some ss =>
                              match parse_u32 ss with
                              | none => some st
                              | some second =>
                                match (from_ymd_opt year month day).bind
                                    (fun d => and_hms_opt d hour minute second) with
                                | none => some st
                                | some dt =>
                                  some { st with created_at := some (fmtIsoDateTime dt) }
  else if byteLength property_value = 8 then
    match byteSlice 0 4 property_value with
    | none => none
    | some ys =>
      match parse_i32 ys with
      | none => some st
      | some year =>
        match byteSlice 4 6 property_value with
        | none => none
        | some ms =>
          match parse_u32 ms with
          | none => some st
          | some month =>
            match byteSlice 6 8 property_value with
            | none => none
            | some ds =>
              match parse_u32 ds with
              | none => some st
              | some day =>
                match from_ymd_opt year month day with
                | none => some st
                | some date => some { st with created_at := some (fmtIsoDate date) }
  else some st

/-- Body of one iteration of the property loop of `parse_vtodo_from_lines`
(`lib.rs` 258-374), after the trim: skip empty, split at the first colon, strip
property parameters after a semicolon, and dispatch on the base property name. -/
def processTrimmed (st : PState) (line : List Char) : Option PState :=
  if line = [] then some st
  else
    match splitAtColon line with
    | none => some st
    | some (property_name, property_value) =>
      let base_property := beforeSemicolon property_name
      if base_property = str "UID" then some { st with id := property_value }
      else if base_property = str "SUMMARY" then
        some { st with title := unescape_ical_text property_value }
      else if base_property = str "DESCRIPTION" then
        some { st with description := unescape_ical_text property_value }
      else if base_property = str "STATUS" then
        some { st with completed := property_value == str "COMPLETED" }
      else if base_property = str "PRIORITY" then
        some { st with priority :=
          (if property_value = str "1" ∨ property_value = str "2" ∨ property_value = str "3" then
            str "high"
          else if property_value = str "4" ∨ property_value = str "5" ∨ property_value = str "6" then
            str "medium"
          else if property_value = str "7" ∨ property_value = str "8" ∨ property_value = str "9" then
            str "low"
          else str "medium") }
      else if base_property = str "CATEGORIES" then
        some { st with category := some (unescape_ical_text property_value) }
      else if base_property = str "DUE" then handleDue st property_value
      else if base_property = str "CREATED" ∨ base_property = str "DTSTAMP" then
        handleCreated st property_value
      else some st

/-- One iteration of the property loop of `parse_vtodo_from_lines`
(`lib.rs` 256-375): the Rust loop first rebinds the line to its trim. -/
def processLine (st : PState) (rawLine : List Char) : Option PState :=
  processTrimmed st (rustTrim rawLine)

/-- The property loop of `parse_vtodo_from_lines`, a panic (`none`) aborts. -/
def processLines : PState → List (List Char) → Option PState
  | st, [] => some st
  | st, l :: rest =>
    match processLine st l with
    | none => none
    | some st2 => processLines st2 rest

/-- Parse a VTODO from raw iCalendar lines (`lib.rs` 246-398).  `fresh` stands
for the value the random `uuid::Uuid::new_v4().to_string()` call would return
for this block (in Rust always a nonempty 36-character string); a `none` result
models a Rust panic from byte slicing.  The function's own `Result` error path
is unreachable: it always returns `Ok`. -/
def parse_vtodo_from_lines (lines : List (List Char)) (calendar_name : List Char)
    (fresh : List Char) : Option Todo :=
  (processLines initPState lines).map (fun st =>
    { id := if st.id = [] then fresh else st.id
      title := if st.title = [] then str "Untitled Task" else st.title
      description := st.description
      completed := st.completed
      priority := st.priority
      category := st.category
      due_date := st.due_date
      created_at := st.created_at
      calendar_name := calendar_name })

/-- Split at every newline, keeping empty segments. -/
def splitNl : List Char → List (List Char)
  | [] => [[]]
  | c :: rest =>
    if c = '\n' then [] :: splitNl rest
    else
      match splitNl rest with
      | [] => [[c]]
      | l :: ls => (c :: l) :: ls

/-- Remove one trailing carriage return. -/
def dropCR (l : List Char) : List Char :=
  if l.getLast? = some '\r' then l.dropLast else l

/-- Rust `str::lines`: split on newline, strip one trailing carriage return per
line, and do not yield a final empty line. -/
def rustLines (s : List Char) : List (List Char) :=
  let parts := splitNl s
  let parts2 := if parts.getLast? = some [] then parts.dropLast else parts
  parts2.map dropCR

/-- Begin marker of a record block. -/
def beginMarker : List Char := str "BEGIN:VTODO"

/-- End marker of a record block. -/
def endMarker : List Char := str "END:VTODO"

/-- The scanning loop of `load_todos_from_calendar` (`lib.rs` 215-238) as a
state machine over the line list: outside a block (`none`) it waits for a
begin-marker; inside a block (`some acc`, collected lines in reverse) it
collects raw lines until an end-marker or the end of input, either of which
emits the block (the Rust loop calls the parser on the collected lines in both
cases). -/
def scanBlocks : Option (List (List Char)) → List (List Char) → List (List (List Char))
  | none, [] => []
  | some acc, [] => [acc.reverse]
  | none, l :: rest =>
    if rustTrim l = beginMarker then scanBlocks (some []) rest else scanBlocks none rest
  | some acc, l :: rest =>
    if rustTrim l = endMarker then acc.reverse :: scanBlocks none rest
    else scanBlocks (some (l :: acc)) rest

/-- The counting loop of `count_todos_in_file` (`lib.rs` 179-192) as the same
state machine; the inner skip-to-end-marker loop is the `true` (inside) state,
and the counter is bumped when a begin-marker is seen in the outside state. -/
def countScan : Bool → List (List Char) → Nat
  | _, [] => 0
  | false, l :: rest =>
    if rustTrim l = beginMarker then 1 + countScan true rest else countScan false rest
  | true, l :: rest =>
    if rustTrim l = endMarker then countScan false rest else countScan true rest

/-- Count todos in a calendar file (`lib.rs` 175-195).  The file read is the
I/O boundary; the function is given the file content. -/
def count_todos_in_file (content : List Char) : Nat :=
  countScan false (rustLines content)

/-- The per-block parse-and-push of the load loop (`lib.rs` 227-235); `fresh i`
is the UUID the block at index `i` would draw if it needed one, and a panic
(`none`) propagates.  The `Err` arm of the Rust match is dead code, since the
parser always returns `Ok`. -/
def parseBlocks (calendar_name : List Char) (fresh : Nat → List Char) :
    Nat → List (List (List Char)) → Option (List Todo)
  | _, [] => some []
  | i, b :: bs =>
    match parse_vtodo_from_lines b calendar_name (fresh i) with
    | none => none
    | some t => (parseBlocks calendar_name fresh (i+1) bs).map (fun ts => t :: ts)

/-- Load todos from a calendar file (`lib.rs` 199-243).  The file read and the
path-to-name derivation are the I/O boundary; the function is given the file
content and the calendar name. -/
def load_todos_from_calendar (content : List Char) (calendar_name : List Char)
    (fresh : Nat → List Char) : Option (List Todo) :=
  parseBlocks calendar_name fresh 0 (scanBlocks none (rustLines content))

/-- chrono `NaiveDate::parse_from_str(s, "%Y-%m-%d")`, modelled on canonical
zero-padded input, the only shape this codec itself produces; chrono's
tolerance for non-canonical digit widths and signed years is not modelled. -/
def parse_from_str_date (s : List Char) : Option RDate :=
  match s with
  | [y3, y2, y1, y0, '-', m1, m0, '-', d1, d0] =>
    if (isDigitChar y3 && isDigitChar y2 && isDigitChar y1 && isDigitChar y0 &&
        isDigitChar m1 && isDigitChar m0 && isDigitChar d1 && isDigitChar d0) = true then
      from_ymd_opt
        ((digitVal y3 * 1000 + digitVal y2 * 100 + digitVal y1 * 10 + digitVal y0 : Nat) : Int)
        (digitVal m1 * 10 + digitVal m0) (digitVal d1 * 10 + digitVal d0)
    else none
  | _ => none

/-- chrono `NaiveDateTime::parse_from_str(s, "%Y-%m-%dT%H:%M:%S")`, modelled on
canonical zero-padded input, the only shape this codec itself produces. -/
def parse_from_str_datetime (s : List Char) : Option RDateTime :=
  match s with
  | [y3, y2, y1, y0, '-', m1, m0, '-', d1, d0, 'T', h1, h0, ':', i1, i0, ':', s1, s0] =>
    if (isDigitChar y3 && isDigitChar y2 && isDigitChar y1 && isDigitChar y0 &&
        isDigitChar m1 && isDigitChar m0 && isDigitChar d1 && isDigitChar d0 &&
        isDigitChar h1 && isDigitChar h0 && isDigitChar i1 && isDigitChar i0 &&
        isDigitChar s1 && isDigitChar s0) = true then
      (from_ymd_opt
        ((digitVal y3 * 1000 + digitVal y2 * 100 + digitVal y1 * 10 + digitVal y0 : Nat) : Int)
        (digitVal m1 * 10 + digitVal m0) (digitVal d1 * 10 + digitVal d0)).bind
        (fun d => and_hms_opt d (digitVal h1 * 10 + digitVal h0)
          (digitVal i1 * 10 + digitVal i0) (digitVal s1 * 10 + digitVal s0))
    else none
  | _ => none

/-- Rust `format!("{:04}{:02}{:02}", year, month, day)`.  The year reaching
this is nonnegative: it comes from `parse_from_str_date` (four digits) or from
the wall clock. -/
def compactDate (d : RDate) : List Char := fmt4 d.year.toNat ++ fmt2 d.month ++ fmt2 d.day

/-- Rust `format!("{:04}{:02}{:02}T{:02}{:02}{:02}Z", ...)`. -/
def compactDateTime (dt : RDateTime) : List Char :=
  compactDate dt.date ++ 'T' :: (fmt2 dt.hour ++ fmt2 dt.minute ++ fmt2 dt.second) ++ ['Z']

/-- Reverse priority mapping of the serializer (`lib.rs` 431-436). -/
def priorityRev (p : List Char) : List Char :=
  if p = str "high" then str "1"
  else if p = str "medium" then str "5"
  else if p = str "low" then str "9"
  else str "5"

/-- The optional DESCRIPTION line of a serialized block (`lib.rs` 425-429):
emitted only for a nonempty description. -/
def descLines (v : List Char) : List (List Char) :=
  if v = [] then [] else [str "DESCRIPTION:" ++ escape_ical_text v]

/-- The optional CATEGORIES line of a serialized block (`lib.rs` 438-441). -/
def catLines : Option (List Char) → List (List Char)
  | none => []
  | some c => [str "CATEGORIES:" ++ escape_ical_text c]

/-- The optional DUE line of a serialized block (`lib.rs` 443-448): emitted
only when the stored due date parses in the `%Y-%m-%d` format. -/
def dueLines : Option (List Char) → List (List Char)
  | none => []
  | some d =>
    match parse_from_str_date d with
    | none => []
    | some date => [str "DUE:" ++ compactDate date]

/-- The optional CREATED line of a serialized block (`lib.rs` 450-464): the
stored creation stamp is tried as a date and then as a date-time; neither
parse yields no line. -/
def createdLines : Option (List Char) → List (List Char)
  | none => []
  | some ca =>
    match parse_from_str_date ca with
    | some date => [str "CREATED:" ++ compactDate date]
    | none =>
      match parse_from_str_datetime ca with
      | some dt => [str "CREATED:" ++ compactDateTime dt]
      | none => []

/-- Property lines of one serialized VTODO block, in emission order
(`lib.rs` 416-475), between the begin and end markers.  `now` is the value
`Utc::now()` yields while this block is emitted. -/
def vtodoBody (now : RDateTime) (t : Todo) : List (List Char) :=
  [str "UID:" ++ t.id, str "SUMMARY:" ++ escape_ical_text t.title]
  ++ descLines t.description
  ++ [if t.completed then str "STATUS:COMPLETED" else str "STATUS:NEEDS-ACTION"]
  ++ [str "PRIORITY:" ++ priorityRev t.priority]
  ++ catLines t.category
  ++ dueLines t.due_date
  ++ createdLines t.created_at
  ++ [str "DTSTAMP:" ++ compactDateTime now]

/-- One serialized VTODO block (`lib.rs` 415-476). -/
def vtodoLines (now : RDateTime) (t : Todo) : List (List Char) :=
  beginMarker :: vtodoBody now t ++ [endMarker]

/-- Fixed envelope header of the serializer (`lib.rs` 408-411). -/
def headerLines : List (List Char) :=
  [str "BEGIN:VCALENDAR", str "VERSION:2.0",
   str "PRODID:-//Todo Calendar//Todo Calendar//EN", str "CALSCALE:GREGORIAN"]

/-- A carriage return followed by a newline. -/
def crlf : List Char := ['\r', '\n']

/-- Join lines, terminating every line with CRLF. -/
def joinCRLF (ls : List (List Char)) : List Char := (ls.map (fun l => l ++ crlf)).flatten

/-- Save todos to calendar text (`lib.rs` 402-489).  Every `push_str` of the
Rust function appends exactly one line with a CRLF ending, so the content is
the CRLF-join of the line sequence.  The file write is the I/O boundary, and
`now` is the wall clock value used for the DTSTAMP lines (`Utc::now()` is read
per block; it is modelled as a single instant for the serialization call). -/
def save_todos_to_calendar (todos : List Todo) (now : RDateTime) : List Char :=
  joinCRLF (headerLines ++ (todos.map (vtodoLines now)).flatten ++ [str "END:VCALENDAR"])

/-- Syntactic calendar-date shape: a nonempty digit run, a dash, two digits, a
dash, two digits. -/
def isIsoDateCore (s : List Char) : Bool :=
  !(s.takeWhile isDigitChar).isEmpty &&
  (match s.dropWhile isDigitChar with
   | ['-', m1, m0, '-', d1, d0] =>
     isDigitChar m1 && isDigitChar m0 && isDigitChar d1 && isDigitChar d0
   | _ => false)

/-- Syntactic calendar-date shape, allowing a leading sign for negative years. -/
def isIsoDateStr (s : List Char) : Bool :=
  if s.head? = some '-' then isIsoDateCore (s.drop 1) else isIsoDateCore s

/-- Syntactic date-time shape: a calendar date, a T, and a colon-separated
six-digit time. -/
def isIsoDateTimeCore (s : List Char) : Bool :=
  !(s.takeWhile isDigitChar).isEmpty &&
  (match s.dropWhile isDigitChar with
   | ['-', m1, m0, '-', d1, d0, 'T', h1, h0, ':', i1, i0, ':', s1, s0] =>
     isDigitChar m1 && isDigitChar m0 && isDigitChar d1 && isDigitChar d0 &&
     isDigitChar h1 && isDigitChar h0 && isDigitChar i1 && isDigitChar i0 &&
     isDigitChar s1 && isDigitChar s0
   | _ => false)

/-- Syntactic date-time shape, allowing a leading sign for negative years. -/
def isIsoDateTimeStr (s : List Char) : Bool :=
  if s.head? = some '-' then isIsoDateTimeCore (s.drop 1) else isIsoDateTimeCore s

/-- Invariant maintained by the parser locals: the priority is always one of
the three category strings, and the optional date fields hold only
syntactically valid calendar-date (or date-time) strings. -/
def PInv (st : PState) : Prop :=
  (st.priority = str "high" ∨ st.priority = str "medium" ∨ st.priority = str "low") ∧
  (∀ ds, st.due_date = some ds → isIsoDateStr ds = true) ∧
  (∀ cs, st.created_at = some cs → isIsoDateStr cs = true ∨ isIsoDateTimeStr cs = true)



/-- Per-character effect of `escape_ical_text` on text free of control
characters and backslashes: only semicolons and commas change. -/
def expandChar (c : Char) : List Char :=
  if c = ';' then ['\\', ';'] else if c = ',' then ['\\', ','] else [c]

/-- Character-wise form of `escape_ical_text` on clean text. -/
def expand : List Char → List Char
  | [] => []
  | c :: rest => expandChar c ++ expand rest

/-- Per-character state after the escaped-semicolon step of unescaping:
commas still escaped, everything else already restored. -/
def expandCommaChar (c : Char) : List Char :=
  if c = ',' then ['\\', ','] else [c]

/-- Character-wise intermediate of unescaping. -/
def expandComma : List Char → List Char
  | [] => []
  | c :: rest => expandCommaChar c ++ expandComma rest

/-- No trailing White_Space (vacuously true for the empty string). -/
def noTrailWs (l : List Char) : Bool :=
  match l.getLast? with
  | none => true
  | some d => !isWhite d

/-- A character the escape codec passes through structurally: not a control
character and not a backslash. -/
def cleanChar (c : Char) : Bool := !isControl c && !(c == '\\')

/-- Clean text with no trailing whitespace: the escape codec is injective here
and a property line carrying it trims to itself. -/
def cleanNT (s : List Char) : Bool := s.all cleanChar && noTrailWs s

/-- Per-record hypotheses of the serialization round trip. -/
def todoClean (t : Todo) : Bool :=
  !(t.id == ([] : List Char)) && cleanNT t.id &&
  !(t.title == ([] : List Char)) && cleanNT t.title &&
  cleanNT t.description &&
  (t.priority == str "high" || t.priority == str "medium" || t.priority == str "low") &&
  (match t.category with | none => true | some c => cleanNT c) &&
  (match t.due_date with | none => true | some d => (parse_from_str_date d).isSome)

/-- A wall-clock instant with in-range fields and a four-digit year. -/
def validNow (dt : RDateTime) : Bool :=
  (0 ≤ dt.date.year && dt.date.year ≤ 9999) &&
  (1 ≤ dt.date.month && dt.date.month ≤ 12) &&
  (1 ≤ dt.date.day && dt.date.day ≤ daysInMonth dt.date.year dt.date.month) &&
  (dt.hour ≤ 23 && dt.minute ≤ 59 && dt.second ≤ 59)

/-- What one record becomes after a serialize-parse round trip: `created_at`
is replaced by the serialization instant and the provenance tag by the name of
the calendar the text was re-read from; all other fields survive. -/
def roundTrip (t : Todo) (now : RDateTime) (cal : List Char) : Todo :=
  { t with created_at := some (fmtIsoDateTime now), calendar_name := cal }


/-! ### Theorems -/

theorem replaceLAux_congr (p : Char) (ps rep : List Char) :
    ∀ n, ∀ s : List Char, s.length ≤ n → ∀ f1 f2, s.length ≤ f1 → s.length ≤ f2 →
      replaceLAux p ps rep f1 s = replaceLAux p ps rep f2 s := by
  intro n
  induction n with
  | zero =>
    intro s hs f1 f2 _ _
    have : s = [] := List.eq_nil_of_length_eq_zero (Nat.le_zero.mp hs)
    subst this
    cases f1 <;> cases f2 <;> rfl
  | succ n ih =>
    intro s hs f1 f2 h1 h2
    cases s with
    | nil => cases f1 <;> cases f2 <;> rfl
    | cons c rest =>
      cases f1 with
      | zero => exact absurd h1 (by simp)
      | succ a =>
        cases f2 with
        | zero => exact absurd h2 (by simp)
        | succ b =>
          simp only [replaceLAux]
          by_cases hc : c = p ∧ ps.isPrefixOf rest
          · simp only [if_pos hc]
            have hlen : (rest.drop ps.length).length ≤ rest.length := by
              simp [List.length_drop]
            have hr : rest.length ≤ n := by simpa using hs
            have ha : rest.length ≤ a := by simpa using h1
            have hb : rest.length ≤ b := by simpa using h2
            rw [ih _ (Nat.le_trans hlen hr) a b (Nat.le_trans hlen ha) (Nat.le_trans hlen hb)]
          · simp only [if_neg hc]
            have hr : rest.length ≤ n := by simpa using hs
            have ha : rest.length ≤ a := by simpa using h1
            have hb : rest.length ≤ b := by simpa using h2
            rw [ih _ hr a b ha hb]

theorem replaceL_nil (p : Char) (ps rep : List Char) : replaceL p ps rep [] = [] := rfl

theorem replaceL_cons (p : Char) (ps rep : List Char) (c : Char) (rest : List Char) :
    replaceL p ps rep (c :: rest) =
      if c = p ∧ ps.isPrefixOf rest then
        rep ++ replaceL p ps rep (rest.drop ps.length)
      else
        c :: replaceL p ps rep rest := by
  show replaceLAux p ps rep (rest.length + 1) (c :: rest) = _
  simp only [replaceLAux]
  by_cases hc : c = p ∧ ps.isPrefixOf rest
  · simp only [if_pos hc]
    have hlen : (rest.drop ps.length).length ≤ rest.length := by simp [List.length_drop]
    rw [replaceLAux_congr p ps rep (rest.drop ps.length).length _ le_rfl rest.length
      (rest.drop ps.length).length (by exact hlen) le_rfl]
    rfl
  · simp only [if_neg hc]
    rw [replaceLAux_congr p ps rep rest.length _ le_rfl rest.length rest.length le_rfl le_rfl]
    rfl


example : escape_ical_text (str "Call Bob; bring milk, then go") =
    str "Call Bob\\; bring milk\\, then go" := by decide

example : unescape_ical_text (str "Call Bob\\; bring milk\\, then go") =
    str "Call Bob; bring milk, then go" := by decide

example : unescape_ical_text (escape_ical_text (str "\\n")) = str "\n" := by decide


/-! Single-character `replace` patterns behave character-wise. -/

theorem replaceS_cons (p : Char) (rep : List Char) (c : Char) (rest : List Char) :
    replaceL p [] rep (c :: rest) =
      (if c = p then rep else [c]) ++ replaceL p [] rep rest := by
  rw [replaceL_cons]
  by_cases hc : c = p
  · simp [hc, List.isPrefixOf]
  · simp [hc, List.isPrefixOf]

theorem replaceS_append (p : Char) (rep : List Char) (a b : List Char) :
    replaceL p [] rep (a ++ b) = replaceL p [] rep a ++ replaceL p [] rep b := by
  induction a with
  | nil => simp [replaceL_nil]
  | cons c t ih => simp [replaceS_cons, ih]

theorem replaceS_of_not_mem (p : Char) (rep : List Char) (s : List Char) (h : p ∉ s) :
    replaceL p [] rep s = s := by
  induction s with
  | nil => rfl
  | cons c t ih =>
    have hc : ¬(c = p) := fun e => h (e ▸ List.mem_cons_self c t)
    rw [replaceS_cons, if_neg hc, ih (fun m => h (List.mem_cons_of_mem c m))]
    rfl

/-! The escape codec on clean text. -/

theorem cleanChar_not_bs {c : Char} (hc : cleanChar c = true) : ¬(c = '\\') := by
  intro e; subst e; simp [cleanChar] at hc

theorem cleanChar_not_control {c : Char} (hc : cleanChar c = true) : isControl c = false := by
  simp [cleanChar] at hc; exact hc.1

theorem cleanChar_not_nl {c : Char} (hc : cleanChar c = true) : ¬(c = '\n') := by
  intro e; subst e; simp [cleanChar, isControl] at hc

theorem cleanChar_not_cr {c : Char} (hc : cleanChar c = true) : ¬(c = '\r') := by
  intro e; subst e; simp [cleanChar, isControl] at hc

theorem cleanChar_not_nul {c : Char} (hc : cleanChar c = true) : ¬(c = Char.ofNat 0) := by
  intro e; subst e; simp [cleanChar, isControl] at hc

theorem escape_cons_clean (c : Char) (t : List Char) (hc : cleanChar c = true) :
    escape_ical_text (c :: t) = expandChar c ++ escape_ical_text t := by
  have hcb := cleanChar_not_bs hc
  have hcn := cleanChar_not_nl hc
  have hcr := cleanChar_not_cr hc
  have hc0 := cleanChar_not_nul hc
  have hcc := cleanChar_not_control hc
  by_cases hsemi : c = ';'
  · subst hsemi
    simp [escape_ical_text, expandChar, replaceS_append, replaceS_cons, replaceL_nil,
      isControl]
  · by_cases hcomma : c = ','
    · subst hcomma
      simp [escape_ical_text, expandChar, replaceS_append, replaceS_cons, replaceL_nil,
        isControl]
    · simp [escape_ical_text, expandChar, replaceS_append, replaceS_cons, replaceL_nil,
        hcb, hcn, hcr, hc0, hsemi, hcomma, hcc]

theorem escape_eq_expand (s : List Char) (h : ∀ c ∈ s, cleanChar c = true) :
    escape_ical_text s = expand s := by
  induction s with
  | nil => rfl
  | cons c t ih =>
    rw [escape_cons_clean c t (h c (List.mem_cons_self c t)), expand,
      ih (fun x hx => h x (List.mem_cons_of_mem c hx))]

theorem expand_cons_semi (t : List Char) : expand (';' :: t) = '\\' :: ';' :: expand t := by
  simp [expand, expandChar]

theorem expand_cons_comma (t : List Char) : expand (',' :: t) = '\\' :: ',' :: expand t := by
  simp [expand, expandChar]

theorem expand_cons_other (c : Char) (t : List Char) (h1 : ¬(c = ';')) (h2 : ¬(c = ',')) :
    expand (c :: t) = c :: expand t := by
  simp [expand, expandChar, h1, h2]

theorem collapseStep_expand (s : List Char) (h : ∀ c ∈ s, cleanChar c = true) :
    collapseStep (expand s) = expand s := by
  induction s with
  | nil => rfl
  | cons c t ih =>
    have hc := h c (List.mem_cons_self c t)
    have iht := ih (fun x hx => h x (List.mem_cons_of_mem c hx))
    have hcb := cleanChar_not_bs hc
    simp only [collapseStep] at iht ⊢
    by_cases hsemi : c = ';'
    · subst hsemi
      rw [expand_cons_semi]
      simp [replaceL_cons, List.isPrefixOf, iht]
    · by_cases hcomma : c = ','
      · subst hcomma
        rw [expand_cons_comma]
        simp [replaceL_cons, List.isPrefixOf, iht]
      · rw [expand_cons_other c t hsemi hcomma]
        simp [replaceL_cons, hcb, iht]

theorem collapseBackslashes_of_fix (s : List Char) (h : collapseStep s = s) :
    collapseBackslashes s = s := by
  rw [collapseBackslashes, collapseLoop]
  simp [h]

theorem unescape_n_expand (s : List Char) (h : ∀ c ∈ s, cleanChar c = true) :
    replaceL '\\' ['n'] ['\n'] (expand s) = expand s := by
  induction s with
  | nil => rfl
  | cons c t ih =>
    have hc := h c (List.mem_cons_self c t)
    have iht := ih (fun x hx => h x (List.mem_cons_of_mem c hx))
    have hcb := cleanChar_not_bs hc
    by_cases hsemi : c = ';'
    · subst hsemi
      rw [expand_cons_semi]
      simp [replaceL_cons, List.isPrefixOf, iht]
    · by_cases hcomma : c = ','
      · subst hcomma
        rw [expand_cons_comma]
        simp [replaceL_cons, List.isPrefixOf, iht]
      · rw [expand_cons_other c t hsemi hcomma]
        simp [replaceL_cons, hcb, iht]

theorem unescape_N_expand (s : List Char) (h : ∀ c ∈ s, cleanChar c = true) :
    replaceL '\\' ['N'] ['\n'] (expand s) = expand s := by
  induction s with
  | nil => rfl
  | cons c t ih =>
    have hc := h c (List.mem_cons_self c t)
    have iht := ih (fun x hx => h x (List.mem_cons_of_mem c hx))
    have hcb := cleanChar_not_bs hc
    by_cases hsemi : c = ';'
    · subst hsemi
      rw [expand_cons_semi]
      simp [replaceL_cons, List.isPrefixOf, iht]
    · by_cases hcomma : c = ','
      · subst hcomma
        rw [expand_cons_comma]
        simp [replaceL_cons, List.isPrefixOf, iht]
      · rw [expand_cons_other c t hsemi hcomma]
        simp [replaceL_cons, hcb, iht]

theorem expandComma_cons_comma (t : List Char) :
    expandComma (',' :: t) = '\\' :: ',' :: expandComma t := by
  simp [expandComma, expandCommaChar]

theorem expandComma_cons_other (c : Char) (t : List Char) (h2 : ¬(c = ',')) :
    expandComma (c :: t) = c :: expandComma t := by
  simp [expandComma, expandCommaChar, h2]

theorem unescape_semi_expand (s : List Char) (h : ∀ c ∈ s, cleanChar c = true) :
    replaceL '\\' [';'] [';'] (expand s) = expandComma s := by
  induction s with
  | nil => rfl
  | cons c t ih =>
    have hc := h c (List.mem_cons_self c t)
    have iht := ih (fun x hx => h x (List.mem_cons_of_mem c hx))
    have hcb := cleanChar_not_bs hc
    by_cases hsemi : c = ';'
    · subst hsemi
      rw [expand_cons_semi, expandComma_cons_other ';' t (by decide)]
      simp [replaceL_cons, List.isPrefixOf, iht]
    · by_cases hcomma : c = ','
      · subst hcomma
        rw [expand_cons_comma, expandComma_cons_comma]
        simp [replaceL_cons, List.isPrefixOf, iht]
      · rw [expand_cons_other c t hsemi hcomma, expandComma_cons_other c t hcomma]
        simp [replaceL_cons, hcb, iht]

theorem unescape_comma_expandComma (s : List Char) (h : ∀ c ∈ s, cleanChar c = true) :
    replaceL '\\' [','] [','] (expandComma s) = s := by
  induction s with
  | nil => rfl
  | cons c t ih =>
    have hc := h c (List.mem_cons_self c t)
    have iht := ih (fun x hx => h x (List.mem_cons_of_mem c hx))
    have hcb := cleanChar_not_bs hc
    by_cases hcomma : c = ','
    · subst hcomma
      rw [expandComma_cons_comma]
      simp [replaceL_cons, List.isPrefixOf, iht]
    · rw [expandComma_cons_other c t hcomma]
      simp [replaceL_cons, hcb, iht]

/-- The escape/unescape pair is the identity on text free of control
characters, NUL and backslashes. -/
theorem unescape_escape_clean (s : List Char) (h : ∀ c ∈ s, cleanChar c = true) :
    unescape_ical_text (escape_ical_text s) = s := by
  rw [escape_eq_expand s h, unescape_ical_text]
  rw [collapseBackslashes_of_fix _ (collapseStep_expand s h)]
  rw [unescape_n_expand s h, unescape_N_expand s h, unescape_semi_expand s h,
    unescape_comma_expandComma s h]


/-- Claim C1: the specification asserts that unescape after escape is the
identity on every input free of raw control characters and NUL.  This is
false: the two-character input backslash-then-n contains no control character
and no NUL, yet escape doubles the backslash, the backslash-normalisation loop
of unescape collapses it back, and the newline expansion then turns the pair
into a newline character, so the round trip returns a different string. -/
theorem C1_counterexample :
    ((str "\\n").all (fun c => !isControl c && !(c == Char.ofNat 0))) = true ∧
    unescape_ical_text (escape_ical_text (str "\\n")) ≠ str "\\n" := by
  exact ⟨by decide, by decide⟩

/-- Claim C1 (amended): for every input string that contains no raw control
characters, no NUL, and no backslashes, unescaping the escaped text returns
the input unchanged. -/
theorem C1_theorem (x : List Char) (h : ∀ c ∈ x, cleanChar c = true) :
    unescape_ical_text (escape_ical_text x) = x :=
  unescape_escape_clean x h

/-- Witness for C1 at the escaping example text of the specification. -/
theorem C1_witness :
    unescape_ical_text (escape_ical_text (str "Call Bob; bring milk, then go")) =
      str "Call Bob; bring milk, then go" :=
  C1_theorem (str "Call Bob; bring milk, then go") (by decide)


/-! Decimal digit strings. -/

theorem natDigitsAux_congr (n : Nat) : ∀ f1 f2, n < f1 → n < f2 →
    natDigitsAux f1 n = natDigitsAux f2 n := by
  induction n using Nat.strong_induction_on with
  | _ n ih =>
    intro f1 f2 h1 h2
    cases f1 with
    | zero => omega
    | succ a =>
      cases f2 with
      | zero => omega
      | succ b =>
        simp only [natDigitsAux]
        by_cases h : n < 10
        · simp [h]
        · simp only [if_neg h]
          have hd : n / 10 < n := Nat.div_lt_self (by omega) (by omega)
          rw [ih (n / 10) hd a b (by omega) (by omega)]

theorem natDigits_lt10 (n : Nat) (h : n < 10) : natDigits n = [digitChar n] := by
  rw [natDigits]
  simp [natDigitsAux, h]

theorem natDigits_ge10 (n : Nat) (h : 10 ≤ n) :
    natDigits n = natDigits (n / 10) ++ [digitChar (n % 10)] := by
  cases n with
  | zero => omega
  | succ m =>
    rw [natDigits]
    rw [show natDigitsAux (m + 1 + 1) (m + 1) =
      (if m + 1 < 10 then [digitChar (m + 1)]
      else natDigitsAux (m + 1) ((m + 1) / 10) ++ [digitChar ((m + 1) % 10)]) from rfl]
    rw [if_neg (by omega : ¬(m + 1 < 10))]
    rw [natDigitsAux_congr ((m + 1) / 10) (m + 1) ((m + 1) / 10 + 1)
      (Nat.div_lt_self (by omega) (by omega)) (by omega)]
    rfl

theorem digitChar_is_digit (n : Nat) (h : n < 10) : isDigitChar (digitChar n) = true := by
  interval_cases n <;> decide

theorem digitVal_digitChar (n : Nat) (h : n < 10) : digitVal (digitChar n) = n := by
  interval_cases n <;> decide

theorem isDigit_toNat {c : Char} (h : isDigitChar c = true) : 48 ≤ c.toNat ∧ c.toNat ≤ 57 := by
  simpa [isDigitChar] using h

theorem isDigit_ascii {c : Char} (h : isDigitChar c = true) : charBytes c = 1 := by
  have := isDigit_toNat h
  simp [charBytes]
  omega

theorem isDigit_not_ws {c : Char} (h : isDigitChar c = true) : isWhite c = false := by
  have := isDigit_toNat h
  simp [isWhite]
  omega

theorem isDigit_clean {c : Char} (h : isDigitChar c = true) : cleanChar c = true := by
  have ht := isDigit_toNat h
  have h1 : isControl c = false := by
    simp [isControl]
    omega
  have h2 : ¬(c = '\\') := by
    intro e
    subst e
    exact absurd h (by decide)
  simp [cleanChar, h1, h2]

theorem natDigits_digits (n : Nat) : ∀ c ∈ natDigits n, isDigitChar c = true := by
  induction n using Nat.strong_induction_on with
  | _ n ih =>
    by_cases h : n < 10
    · rw [natDigits_lt10 n h]
      intro c hc
      simp at hc
      subst hc
      exact digitChar_is_digit n h
    · rw [natDigits_ge10 n (by omega)]
      intro c hc
      rcases List.mem_append.mp hc with h1 | h2
      · exact ih (n / 10) (Nat.div_lt_self (by omega) (by omega)) c h1
      · simp at h2
        subst h2
        exact digitChar_is_digit (n % 10) (Nat.mod_lt _ (by omega))

theorem natDigits_ne_nil (n : Nat) : natDigits n ≠ [] := by
  by_cases h : n < 10
  · rw [natDigits_lt10 n h]; simp
  · rw [natDigits_ge10 n (by omega)]; simp

theorem natDigits_len_le (k : Nat) : ∀ n, n < 10 ^ k → 1 ≤ k → (natDigits n).length ≤ k := by
  induction k with
  | zero => intro n _ hk; omega
  | succ k ih =>
    intro n hn _
    by_cases h : n < 10
    · rw [natDigits_lt10 n h]; simp
    · rw [natDigits_ge10 n (by omega)]
      have hk1 : 1 ≤ k := by
        by_contra hk
        have : k = 0 := by omega
        subst this
        simp at hn
        omega
      have hdiv : n / 10 < 10 ^ k := by
        rw [Nat.div_lt_iff_lt_mul (by omega)]
        calc n < 10 ^ (k + 1) := hn
        _ = 10 ^ k * 10 := by ring
      have := ih (n / 10) hdiv hk1
      simp [List.length_append]
      omega

theorem valDigits_append_one (l : List Char) (c : Char) :
    valDigits (l ++ [c]) = 10 * valDigits l + digitVal c := by
  simp [valDigits, List.foldl_append]

theorem valDigits_natDigits (n : Nat) : valDigits (natDigits n) = n := by
  induction n using Nat.strong_induction_on with
  | _ n ih =>
    by_cases h : n < 10
    · rw [natDigits_lt10 n h]
      simp [valDigits, digitVal_digitChar n h]
    · rw [natDigits_ge10 n (by omega), valDigits_append_one,
        ih (n / 10) (Nat.div_lt_self (by omega) (by omega)),
        digitVal_digitChar (n % 10) (Nat.mod_lt _ (by omega))]
      omega

theorem parseDigitsAux_all (l : List Char) (h : ∀ c ∈ l, isDigitChar c = true) :
    ∀ acc, parseDigitsAux acc l = some (l.foldl (fun a c => 10 * a + digitVal c) acc) := by
  induction l with
  | nil => intro acc; rfl
  | cons c t ih =>
    intro acc
    have hc := h c (List.mem_cons_self c t)
    simp only [parseDigitsAux, if_pos hc, List.foldl_cons]
    exact ih (fun x hx => h x (List.mem_cons_of_mem c hx)) _

theorem parseDigits_all (l : List Char) (h : ∀ c ∈ l, isDigitChar c = true) (hne : l ≠ []) :
    parseDigits l = some (valDigits l) := by
  rw [parseDigits, if_neg hne]
  exact parseDigitsAux_all l h 0

theorem valDigits_from_zeros (k : Nat) (l : List Char) :
    valDigits (List.replicate k '0' ++ l) = valDigits l := by
  induction k with
  | zero => simp
  | succ k ih =>
    simp only [List.replicate_succ, List.cons_append]
    show valDigits ('0' :: (List.replicate k '0' ++ l)) = _
    simp only [valDigits, List.foldl_cons] at ih ⊢
    have : (10 * 0 + digitVal '0') = 0 := by decide
    rw [this]
    exact ih

theorem valDigits_padZeros (w : Nat) (l : List Char) :
    valDigits (padZeros w l) = valDigits l := valDigits_from_zeros _ l

theorem padZeros_all_digits (w : Nat) (l : List Char) (h : ∀ c ∈ l, isDigitChar c = true) :
    ∀ c ∈ padZeros w l, isDigitChar c = true := by
  intro c hc
  rcases List.mem_append.mp hc with h1 | h2
  · have := List.eq_of_mem_replicate h1
    subst this
    decide
  · exact h c h2

theorem padZeros_ne_nil (w : Nat) (l : List Char) (hne : l ≠ []) : padZeros w l ≠ [] := by
  intro he
  have hlen := congrArg List.length he
  simp [padZeros] at hlen
  exact hne hlen.2

theorem padZeros_len (w : Nat) (l : List Char) (h : l.length ≤ w) :
    (padZeros w l).length = w := by
  simp [padZeros]
  omega

theorem fmt2_digits (n : Nat) : ∀ c ∈ fmt2 n, isDigitChar c = true :=
  padZeros_all_digits 2 _ (natDigits_digits n)

theorem fmt4_digits (n : Nat) : ∀ c ∈ fmt4 n, isDigitChar c = true :=
  padZeros_all_digits 4 _ (natDigits_digits n)

theorem fmt2_ne_nil (n : Nat) : fmt2 n ≠ [] := padZeros_ne_nil 2 _ (natDigits_ne_nil n)

theorem fmt4_ne_nil (n : Nat) : fmt4 n ≠ [] := padZeros_ne_nil 4 _ (natDigits_ne_nil n)

theorem fmt2_len (n : Nat) (h : n < 100) : (fmt2 n).length = 2 :=
  padZeros_len 2 _ (natDigits_len_le 2 n (by omega) (by omega))

theorem fmt4_len (n : Nat) (h : n < 10000) : (fmt4 n).length = 4 :=
  padZeros_len 4 _ (natDigits_len_le 4 n (by omega) (by omega))

theorem valDigits_fmt2 (n : Nat) : valDigits (fmt2 n) = n := by
  rw [fmt2, valDigits_padZeros, valDigits_natDigits]

theorem valDigits_fmt4 (n : Nat) : valDigits (fmt4 n) = n := by
  rw [fmt4, valDigits_padZeros, valDigits_natDigits]

theorem parseDigits_fmt2 (n : Nat) : parseDigits (fmt2 n) = some n := by
  rw [parseDigits_all _ (fmt2_digits n) (fmt2_ne_nil n), valDigits_fmt2]

theorem parseDigits_fmt4 (n : Nat) : parseDigits (fmt4 n) = some n := by
  rw [parseDigits_all _ (fmt4_digits n) (fmt4_ne_nil n), valDigits_fmt4]

theorem parse_u32_digits (l : List Char) (h : ∀ c ∈ l, isDigitChar c = true) (hne : l ≠ []) :
    parse_u32 l = some (valDigits l) := by
  cases l with
  | nil => exact absurd rfl hne
  | cons c t =>
    have hc := h c (List.mem_cons_self c t)
    have : ¬(c = '+') := by
      intro e
      subst e
      simp [isDigitChar] at hc
    rw [parse_u32, if_neg this]
    exact parseDigits_all _ h hne

theorem parse_i32_digits (l : List Char) (h : ∀ c ∈ l, isDigitChar c = true) (hne : l ≠ []) :
    parse_i32 l = some ((valDigits l : Nat) : Int) := by
  cases l with
  | nil => exact absurd rfl hne
  | cons c t =>
    have hc := h c (List.mem_cons_self c t)
    have h1 : ¬(c = '+') := by
      intro e; subst e; simp [isDigitChar] at hc
    have h2 : ¬(c = '-') := by
      intro e; subst e; simp [isDigitChar] at hc
    rw [parse_i32, if_neg h1, if_neg h2, parseDigits_all _ h hne]
    rfl

theorem parse_u32_fmt2 (n : Nat) : parse_u32 (fmt2 n) = some n := by
  rw [parse_u32_digits _ (fmt2_digits n) (fmt2_ne_nil n), valDigits_fmt2]

theorem parse_i32_fmt4 (n : Nat) : parse_i32 (fmt4 n) = some ((n : Nat) : Int) := by
  rw [parse_i32_digits _ (fmt4_digits n) (fmt4_ne_nil n), valDigits_fmt4]


theorem digitChar_digitVal {c : Char} (h : isDigitChar c = true) :
    digitChar (digitVal c) = c := by
  have ht := isDigit_toNat h
  rw [digitChar, digitVal, show 48 + (c.toNat - 48) = c.toNat by omega]
  exact Char.ofNat_toNat c

theorem digitVal_le_nine {c : Char} (h : isDigitChar c = true) : digitVal c ≤ 9 := by
  have := isDigit_toNat h
  rw [digitVal]
  omega

theorem valDigits_lt (l : List Char) (h : ∀ c ∈ l, isDigitChar c = true) :
    valDigits l < 10 ^ l.length := by
  induction l using List.reverseRecOn with
  | nil => simp [valDigits]
  | append_singleton init c ih =>
    have hc := h c (by simp)
    have hi := ih (fun x hx => h x (by simp [hx]))
    rw [valDigits_append_one]
    have := digitVal_le_nine hc
    simp [List.length_append]
    calc 10 * valDigits init + digitVal c ≤ 10 * (10 ^ init.length - 1) + 9 := by
          have : valDigits init ≤ 10 ^ init.length - 1 := by omega
          omega
    _ < 10 ^ (init.length + 1) := by
          have hp : 1 ≤ 10 ^ init.length := Nat.one_le_pow _ _ (by omega)
          rw [pow_succ]
          omega

theorem valDigits_cons_zero (l : List Char) : valDigits ('0' :: l) = valDigits l := by
  show List.foldl _ (10 * 0 + digitVal '0') l = _
  rw [show (10 * 0 + digitVal '0' : Nat) = 0 from by decide]
  rfl

theorem valDigits_foldl_ge (l : List Char) : ∀ acc, acc ≤ l.foldl (fun a c => 10 * a + digitVal c) acc := by
  induction l with
  | nil => intro acc; exact le_rfl
  | cons c t ih =>
    intro acc
    calc acc ≤ 10 * acc + digitVal c := by omega
    _ ≤ _ := ih _

theorem valDigits_cons_ge (c : Char) (l : List Char) : digitVal c ≤ valDigits (c :: l) := by
  show digitVal c ≤ List.foldl _ (10 * 0 + digitVal c) l
  calc digitVal c ≤ 10 * 0 + digitVal c := by omega
  _ ≤ _ := valDigits_foldl_ge l _

theorem natDigits_exact (c : Char) (rest : List Char)
    (h : ∀ x ∈ c :: rest, isDigitChar x = true) (hc1 : 1 ≤ digitVal c) :
    natDigits (valDigits (c :: rest)) = c :: rest := by
  induction rest using List.reverseRecOn with
  | nil =>
    have hc := h c (by simp)
    have hone : valDigits [c] = digitVal c := by simp [valDigits]
    have hlt : valDigits [c] < 10 := by
      rw [hone]
      have := digitVal_le_nine hc
      omega
    rw [natDigits_lt10 _ hlt, hone, digitChar_digitVal hc]
  | append_singleton init d ih =>
    have hd := h d (by simp)
    have hge : 1 ≤ valDigits (c :: init) := le_trans hc1 (valDigits_cons_ge c init)
    have hval : valDigits (c :: (init ++ [d])) = 10 * valDigits (c :: init) + digitVal d := by
      rw [show c :: (init ++ [d]) = (c :: init) ++ [d] from rfl, valDigits_append_one]
    have h10 : 10 ≤ valDigits (c :: (init ++ [d])) := by
      have := digitVal_le_nine hd
      omega
    rw [natDigits_ge10 _ h10]
    have hdiv : valDigits (c :: (init ++ [d])) / 10 = valDigits (c :: init) := by
      rw [hval]
      have := digitVal_le_nine hd
      omega
    have hmod : valDigits (c :: (init ++ [d])) % 10 = digitVal d := by
      rw [hval]
      have := digitVal_le_nine hd
      omega
    have hsub : ∀ x ∈ c :: init, isDigitChar x = true := by
      intro x hx
      apply h
      rcases List.mem_cons.mp hx with e | hm
      · simp [e]
      · exact List.mem_cons_of_mem _ (List.mem_append.mpr (Or.inl hm))
    rw [hdiv, hmod, digitChar_digitVal hd, ih hsub]
    rfl

theorem padZeros_roundtrip (ds : List Char) (h : ∀ c ∈ ds, isDigitChar c = true)
    (hne : ds ≠ []) : padZeros ds.length (natDigits (valDigits ds)) = ds := by
  induction ds with
  | nil => exact absurd rfl hne
  | cons c rest ih =>
    have hc := h c (by simp)
    by_cases hz : c = '0'
    · subst hz
      cases rest with
      | nil =>
        show padZeros 1 (natDigits (valDigits ['0'])) = ['0']
        decide
      | cons d t =>
        have hrest : ∀ x ∈ d :: t, isDigitChar x = true :=
          fun x hx => h x (List.mem_cons_of_mem _ hx)
        have hlen : (natDigits (valDigits (d :: t))).length ≤ (d :: t).length :=
          natDigits_len_le _ _ (valDigits_lt _ hrest) (by simp)
        rw [valDigits_cons_zero]
        have hrw : ('0' :: d :: t).length = (d :: t).length + 1 := rfl
        rw [hrw, padZeros,
          show (d :: t).length + 1 - (natDigits (valDigits (d :: t))).length
            = ((d :: t).length - (natDigits (valDigits (d :: t))).length) + 1 by omega,
          List.replicate_succ, List.cons_append]
        rw [show List.replicate ((d :: t).length - (natDigits (valDigits (d :: t))).length) '0'
            ++ natDigits (valDigits (d :: t)) = padZeros (d :: t).length (natDigits (valDigits (d :: t))) from rfl]
        rw [ih hrest (by simp)]
    · have hc1 : 1 ≤ digitVal c := by
        have := isDigit_toNat hc
        rw [digitVal]
        have hne48 : c.toNat ≠ 48 := by
          intro e
          apply hz
          have : Char.ofNat c.toNat = Char.ofNat 48 := by rw [e]
          rwa [Char.ofNat_toNat c] at this
        omega
      rw [natDigits_exact c rest h hc1, padZeros]
      simp


/-! UTF-8 byte accounting on ASCII text. -/

theorem byteLength_cons (c : Char) (t : List Char) :
    byteLength (c :: t) = charBytes c + byteLength t := by
  simp [byteLength]

theorem byteLength_ascii (s : List Char) (h : ∀ c ∈ s, charBytes c = 1) :
    byteLength s = s.length := by
  induction s with
  | nil => rfl
  | cons c t ih =>
    rw [byteLength_cons, h c (List.mem_cons_self c t),
      ih (fun x hx => h x (List.mem_cons_of_mem c hx))]
    simp
    omega

theorem byteDrop_ascii (s : List Char) (h : ∀ c ∈ s, charBytes c = 1) :
    ∀ n, n ≤ s.length → byteDrop n s = some (s.drop n) := by
  induction s with
  | nil =>
    intro n hn
    have : n = 0 := by simpa using hn
    subst this
    rfl
  | cons c t ih =>
    intro n hn
    cases n with
    | zero => rfl
    | succ m =>
      rw [byteDrop, h c (List.mem_cons_self c t)]
      simp only [if_pos (by omega : (1 : Nat) ≤ m + 1)]
      rw [show m + 1 - 1 = m by omega]
      rw [ih (fun x hx => h x (List.mem_cons_of_mem c hx)) m (by simpa using hn)]
      rfl

theorem byteTake_ascii (s : List Char) (h : ∀ c ∈ s, charBytes c = 1) :
    ∀ n, n ≤ s.length → byteTake n s = some (s.take n) := by
  induction s with
  | nil =>
    intro n hn
    have : n = 0 := by simpa using hn
    subst this
    rfl
  | cons c t ih =>
    intro n hn
    cases n with
    | zero => rfl
    | succ m =>
      rw [byteTake, h c (List.mem_cons_self c t)]
      simp only [if_pos (by omega : (1 : Nat) ≤ m + 1)]
      rw [show m + 1 - 1 = m by omega]
      rw [ih (fun x hx => h x (List.mem_cons_of_mem c hx)) m (by simpa using hn)]
      rfl

theorem byteSlice_ascii (s : List Char) (h : ∀ c ∈ s, charBytes c = 1)
    (a b : Nat) (hab : a ≤ b) (hb : b ≤ s.length) :
    byteSlice a b s = some ((s.drop a).take (b - a)) := by
  rw [byteSlice, byteDrop_ascii s h a (le_trans hab hb)]
  show byteTake (b - a) (s.drop a) = _
  exact byteTake_ascii (s.drop a) (fun c hc => h c (List.mem_of_mem_drop hc)) (b - a)
    (by simp [List.length_drop]; omega)

/-! Trimming. -/

theorem dropWhile_append_split (p : Char → Bool) (a b : List Char) :
    (a ++ b).dropWhile p =
      if (a.dropWhile p).isEmpty then b.dropWhile p else a.dropWhile p ++ b := by
  induction a with
  | nil => simp
  | cons c t ih =>
    by_cases hp : p c
    · simp [List.dropWhile_cons, hp, ih]
    · simp [List.dropWhile_cons, hp]

theorem dropTrailWs_cons (c : Char) (r : List Char) (hc : isWhite c = false) :
    dropTrailWs (c :: r) = c :: dropTrailWs r := by
  rw [dropTrailWs, dropTrailWs, show (c :: r).reverse = r.reverse ++ [c] by simp,
    dropWhile_append_split]
  by_cases he : (r.reverse.dropWhile isWhite).isEmpty
  · rw [if_pos he]
    have : r.reverse.dropWhile isWhite = [] := by
      cases hx : r.reverse.dropWhile isWhite
      · rfl
      · rw [hx] at he; simp at he
    rw [this]
    simp [List.dropWhile_cons, hc]
  · rw [if_neg he]
    simp

theorem dropTrailWs_eq_self (l : List Char) (h : noTrailWs l = true) : dropTrailWs l = l := by
  rw [dropTrailWs]
  cases hrev : l.reverse with
  | nil =>
    have : l = [] := by simpa using congrArg List.reverse hrev
    simp [this]
  | cons d rr =>
    have hd : l.getLast? = some d := by
      rw [← List.head?_reverse, hrev]
      rfl
    rw [noTrailWs, hd] at h
    simp at h
    rw [List.dropWhile_cons, h]
    simp only [Bool.false_eq_true, if_false]
    calc (d :: rr).reverse = l.reverse.reverse := by rw [hrev]
    _ = l := List.reverse_reverse l

theorem rustTrim_eq_self (l : List Char)
    (hh : ∀ c, l.head? = some c → isWhite c = false)
    (ht : noTrailWs l = true) : rustTrim l = l := by
  rw [rustTrim]
  have hstep : l.dropWhile isWhite = l := by
    cases l with
    | nil => rfl
    | cons c r =>
      rw [List.dropWhile_cons, hh c rfl]
      simp
  rw [hstep, dropTrailWs_eq_self l ht]

theorem rustTrim_cons (c : Char) (r : List Char) (hc : isWhite c = false) :
    rustTrim (c :: r) = c :: dropTrailWs r := by
  rw [rustTrim]
  rw [List.dropWhile_cons, hc]
  simp
  exact dropTrailWs_cons c r hc

theorem rustTrim_ne_of_head (c : Char) (r : List Char) (hc : isWhite c = false)
    (d : Char) (m : List Char) (hne : ¬(c = d)) : rustTrim (c :: r) ≠ d :: m := by
  rw [rustTrim_cons c r hc]
  intro he
  exact hne (List.cons_eq_cons.mp he).1

/-! Property line splitting. -/

theorem splitAtColon_append (a b : List Char) (h : ':' ∉ a) :
    splitAtColon (a ++ ':' :: b) = some (a, b) := by
  induction a with
  | nil => simp [splitAtColon]
  | cons c t ih =>
    have hc : ¬(c = ':') := fun e => h (e ▸ List.mem_cons_self c t)
    rw [List.cons_append, splitAtColon, if_neg hc,
      ih (fun m => h (List.mem_cons_of_mem c m))]
    rfl

theorem beforeSemicolon_id (a : List Char) (h : ';' ∉ a) : beforeSemicolon a = a := by
  induction a with
  | nil => rfl
  | cons c t ih =>
    have hc : ¬(c = ';') := fun e => h (e ▸ List.mem_cons_self c t)
    rw [beforeSemicolon, if_neg hc, ih (fun m => h (List.mem_cons_of_mem c m))]

/-! Line splitting. -/

theorem splitNl_ne_nil (s : List Char) : splitNl s ≠ [] := by
  cases s with
  | nil => simp [splitNl]
  | cons c rest =>
    rw [splitNl]
    by_cases hc : c = '\n'
    · simp [hc]
    · simp only [if_neg hc]
      cases splitNl rest <;> simp

theorem splitNl_append (a b : List Char) (h : '\n' ∉ a) :
    splitNl (a ++ '\n' :: b) = a :: splitNl b := by
  induction a with
  | nil => simp [splitNl]
  | cons c t ih =>
    have hc : ¬(c = '\n') := fun e => h (e ▸ List.mem_cons_self c t)
    rw [List.cons_append, splitNl, if_neg hc, ih (fun m => h (List.mem_cons_of_mem c m))]

theorem rustLines_cons (a b : List Char) (h : '\n' ∉ a) :
    rustLines (a ++ '\n' :: b) = dropCR a :: rustLines b := by
  rw [rustLines, rustLines, splitNl_append a b h]
  cases hsb : splitNl b with
  | nil => exact absurd hsb (splitNl_ne_nil b)
  | cons x xs =>
    by_cases hlast : (x :: xs).getLast? = some ([] : List Char)
    · simp [List.getLast?_cons_cons, hlast]
    · simp [List.getLast?_cons_cons, hlast]

theorem rustLines_joinCRLF (L : List (List Char))
    (h : ∀ l ∈ L, '\n' ∉ l ∧ '\r' ∉ l) : rustLines (joinCRLF L) = L := by
  induction L with
  | nil => rfl
  | cons l rest ih =>
    have hl := h l (List.mem_cons_self l rest)
    have hm : joinCRLF (l :: rest) = (l ++ ['\r']) ++ '\n' :: joinCRLF rest := by
      simp [joinCRLF, crlf]
    have hnl : '\n' ∉ l ++ ['\r'] := by
      intro hmem
      rcases List.mem_append.mp hmem with h1 | h2
      · exact hl.1 h1
      · simp at h2
    rw [hm, rustLines_cons _ _ hnl]
    have hdrop : dropCR (l ++ ['\r']) = l := by
      rw [dropCR, if_pos (by simp [List.getLast?_concat])]
      simp
    rw [hdrop, ih (fun x hx => h x (List.mem_cons_of_mem l hx))]

/-! The block scanner and the counter. -/

theorem scanBlocks_skip (l : List Char) (rest : List (List Char))
    (h : rustTrim l ≠ beginMarker) :
    scanBlocks none (l :: rest) = scanBlocks none rest := by
  simp [scanBlocks, h]

theorem scanBlocks_begin (l : List Char) (rest : List (List Char))
    (h : rustTrim l = beginMarker) :
    scanBlocks none (l :: rest) = scanBlocks (some []) rest := by
  simp [scanBlocks, h]

theorem scanBlocks_inside (body : List (List Char))
    (hbody : ∀ l ∈ body, rustTrim l ≠ endMarker) (e : List Char)
    (rest : List (List Char)) (he : rustTrim e = endMarker) :
    ∀ acc, scanBlocks (some acc) (body ++ e :: rest)
      = (acc.reverse ++ body) :: scanBlocks none rest := by
  induction body with
  | nil =>
    intro acc
    simp [scanBlocks, he]
  | cons b bs ih =>
    intro acc
    rw [List.cons_append]
    rw [show scanBlocks (some acc) (b :: (bs ++ e :: rest))
      = if rustTrim b = endMarker then acc.reverse :: scanBlocks none (bs ++ e :: rest)
        else scanBlocks (some (b :: acc)) (bs ++ e :: rest) from rfl]
    rw [if_neg (hbody b (List.mem_cons_self b bs))]
    rw [ih (fun x hx => hbody x (List.mem_cons_of_mem b hx)) (b :: acc)]
    simp

theorem countScan_scanBlocks (L : List (List Char)) :
    countScan false L = (scanBlocks none L).length ∧
    ∀ acc, countScan true L + 1 = (scanBlocks (some acc) L).length := by
  induction L with
  | nil => exact ⟨rfl, fun acc => rfl⟩
  | cons l rest ih =>
    constructor
    · by_cases hb : rustTrim l = beginMarker
      · rw [show countScan false (l :: rest) = 1 + countScan true rest by simp [countScan, hb],
          scanBlocks_begin l rest hb, ← ih.2 []]
        omega
      · rw [show countScan false (l :: rest) = countScan false rest by simp [countScan, hb],
          scanBlocks_skip l rest hb, ih.1]
    · intro acc
      by_cases he : rustTrim l = endMarker
      · rw [show countScan true (l :: rest) = countScan false rest by simp [countScan, he],
          show scanBlocks (some acc) (l :: rest) = acc.reverse :: scanBlocks none rest by
            simp [scanBlocks, he]]
        simp [ih.1]
      · rw [show countScan true (l :: rest) = countScan true rest by simp [countScan, he],
          show scanBlocks (some acc) (l :: rest) = scanBlocks (some (l :: acc)) rest by
            simp [scanBlocks, he]]
        exact ih.2 (l :: acc)

theorem parseBlocks_length (cal : List Char) (fresh : Nat → List Char) :
    ∀ (bs : List (List (List Char))) (i : Nat) (ts : List Todo),
      parseBlocks cal fresh i bs = some ts → ts.length = bs.length := by
  intro bs
  induction bs with
  | nil =>
    intro i ts h
    rw [parseBlocks] at h
    cases h
    rfl
  | cons b rest ih =>
    intro i ts h
    rw [parseBlocks] at h
    cases hp : parse_vtodo_from_lines b cal (fresh i) with
    | none => rw [hp] at h; cases h
    | some t =>
      rw [hp] at h
      cases hr : parseBlocks cal fresh (i + 1) rest with
      | none => rw [hr] at h; cases h
      | some ts2 =>
        rw [hr] at h
        simp at h
        subst h
        simp [ih (i + 1) ts2 hr]


/-! Property lines of serialized shape. -/

theorem noTrailWs_append (pre v : List Char) (hp : noTrailWs pre = true)
    (hv : noTrailWs v = true) : noTrailWs (pre ++ v) = true := by
  cases hlv : v.getLast? with
  | none =>
    have hvnil : v = [] := by simpa using hlv
    simpa [hvnil] using hp
  | some d =>
    have hvne : v ≠ [] := by
      intro e
      rw [e] at hlv
      cases hlv
    have hgl : (pre ++ v).getLast? = some d := by
      rw [List.getLast?_append_of_ne_nil pre hvne, hlv]
    rw [noTrailWs, hlv] at hv
    simpa [noTrailWs, hgl] using hv

theorem rustTrim_propline (p : Char) (pr v : List Char) (hph : isWhite p = false)
    (hpt : noTrailWs (p :: pr) = true) (hv : noTrailWs v = true) :
    rustTrim ((p :: pr) ++ v) = (p :: pr) ++ v := by
  apply rustTrim_eq_self
  · intro c hc
    simp at hc
    rw [← hc]
    exact hph
  · exact noTrailWs_append (p :: pr) v hpt hv

theorem processTrimmed_UID (st : PState) (v : List Char) :
    processTrimmed st (str "UID:" ++ v) = some { st with id := v } := by
  have hne : str "UID:" ++ v ≠ [] := by simp [str]
  have hsplit : splitAtColon (str "UID:" ++ v) = some (str "UID", v) := by
    rw [show str "UID:" ++ v = str "UID" ++ ':' :: v from rfl]
    exact splitAtColon_append _ _ (by decide)
  rw [processTrimmed, if_neg hne, hsplit]
  rfl

theorem processLine_UID (st : PState) (v : List Char) (hv : noTrailWs v = true) :
    processLine st (str "UID:" ++ v) = some { st with id := v } := by
  rw [processLine, show str "UID:" ++ v = ('U' :: str "ID:") ++ v from rfl,
    rustTrim_propline 'U' (str "ID:") v (by decide) (by decide) hv]
  exact processTrimmed_UID st v

theorem processTrimmed_SUMMARY (st : PState) (v : List Char) :
    processTrimmed st (str "SUMMARY:" ++ v)
      = some { st with title := unescape_ical_text v } := by
  have hne : str "SUMMARY:" ++ v ≠ [] := by simp [str]
  have hsplit : splitAtColon (str "SUMMARY:" ++ v) = some (str "SUMMARY", v) := by
    rw [show str "SUMMARY:" ++ v = str "SUMMARY" ++ ':' :: v from rfl]
    exact splitAtColon_append _ _ (by decide)
  rw [processTrimmed, if_neg hne, hsplit]
  rfl

theorem processLine_SUMMARY (st : PState) (v : List Char) (hv : noTrailWs v = true) :
    processLine st (str "SUMMARY:" ++ v) = some { st with title := unescape_ical_text v } := by
  rw [processLine, show str "SUMMARY:" ++ v = ('S' :: str "UMMARY:") ++ v from rfl,
    rustTrim_propline 'S' (str "UMMARY:") v (by decide) (by decide) hv]
  exact processTrimmed_SUMMARY st v

theorem processTrimmed_DESCRIPTION (st : PState) (v : List Char) :
    processTrimmed st (str "DESCRIPTION:" ++ v)
      = some { st with description := unescape_ical_text v } := by
  have hne : str "DESCRIPTION:" ++ v ≠ [] := by simp [str]
  have hsplit : splitAtColon (str "DESCRIPTION:" ++ v) = some (str "DESCRIPTION", v) := by
    rw [show str "DESCRIPTION:" ++ v = str "DESCRIPTION" ++ ':' :: v from rfl]
    exact splitAtColon_append _ _ (by decide)
  rw [processTrimmed, if_neg hne, hsplit]
  rfl

theorem processLine_DESCRIPTION (st : PState) (v : List Char) (hv : noTrailWs v = true) :
    processLine st (str "DESCRIPTION:" ++ v)
      = some { st with description := unescape_ical_text v } := by
  rw [processLine, show str "DESCRIPTION:" ++ v = ('D' :: str "ESCRIPTION:") ++ v from rfl,
    rustTrim_propline 'D' (str "ESCRIPTION:") v (by decide) (by decide) hv]
  exact processTrimmed_DESCRIPTION st v

theorem processTrimmed_STATUS (st : PState) (v : List Char) :
    processTrimmed st (str "STATUS:" ++ v)
      = some { st with completed := v == str "COMPLETED" } := by
  have hne : str "STATUS:" ++ v ≠ [] := by simp [str]
  have hsplit : splitAtColon (str "STATUS:" ++ v) = some (str "STATUS", v) := by
    rw [show str "STATUS:" ++ v = str "STATUS" ++ ':' :: v from rfl]
    exact splitAtColon_append _ _ (by decide)
  rw [processTrimmed, if_neg hne, hsplit]
  rfl

theorem processLine_STATUS (st : PState) (v : List Char) (hv : noTrailWs v = true) :
    processLine st (str "STATUS:" ++ v)
      = some { st with completed := v == str "COMPLETED" } := by
  rw [processLine, show str "STATUS:" ++ v = ('S' :: str "TATUS:") ++ v from rfl,
    rustTrim_propline 'S' (str "TATUS:") v (by decide) (by decide) hv]
  exact processTrimmed_STATUS st v

theorem processTrimmed_PRIORITY (st : PState) (v : List Char) :
    processTrimmed st (str "PRIORITY:" ++ v)
      = some { st with priority :=
          (if v = str "1" ∨ v = str "2" ∨ v = str "3" then str "high"
          else if v = str "4" ∨ v = str "5" ∨ v = str "6" then str "medium"
          else if v = str "7" ∨ v = str "8" ∨ v = str "9" then str "low"
          else str "medium") } := by
  have hne : str "PRIORITY:" ++ v ≠ [] := by simp [str]
  have hsplit : splitAtColon (str "PRIORITY:" ++ v) = some (str "PRIORITY", v) := by
    rw [show str "PRIORITY:" ++ v = str "PRIORITY" ++ ':' :: v from rfl]
    exact splitAtColon_append _ _ (by decide)
  rw [processTrimmed, if_neg hne, hsplit]
  rfl

theorem processLine_PRIORITY (st : PState) (v : List Char) (hv : noTrailWs v = true) :
    processLine st (str "PRIORITY:" ++ v)
      = some { st with priority :=
          (if v = str "1" ∨ v = str "2" ∨ v = str "3" then str "high"
          else if v = str "4" ∨ v = str "5" ∨ v = str "6" then str "medium"
          else if v = str "7" ∨ v = str "8" ∨ v = str "9" then str "low"
          else str "medium") } := by
  rw [processLine, show str "PRIORITY:" ++ v = ('P' :: str "RIORITY:") ++ v from rfl,
    rustTrim_propline 'P' (str "RIORITY:") v (by decide) (by decide) hv]
  exact processTrimmed_PRIORITY st v

theorem processTrimmed_CATEGORIES (st : PState) (v : List Char) :
    processTrimmed st (str "CATEGORIES:" ++ v)
      = some { st with category := some (unescape_ical_text v) } := by
  have hne : str "CATEGORIES:" ++ v ≠ [] := by simp [str]
  have hsplit : splitAtColon (str "CATEGORIES:" ++ v) = some (str "CATEGORIES", v) := by
    rw [show str "CATEGORIES:" ++ v = str "CATEGORIES" ++ ':' :: v from rfl]
    exact splitAtColon_append _ _ (by decide)
  rw [processTrimmed, if_neg hne, hsplit]
  rfl

theorem processLine_CATEGORIES (st : PState) (v : List Char) (hv : noTrailWs v = true) :
    processLine st (str "CATEGORIES:" ++ v)
      = some { st with category := some (unescape_ical_text v) } := by
  rw [processLine, show str "CATEGORIES:" ++ v = ('C' :: str "ATEGORIES:") ++ v from rfl,
    rustTrim_propline 'C' (str "ATEGORIES:") v (by decide) (by decide) hv]
  exact processTrimmed_CATEGORIES st v

theorem processTrimmed_DUE (st : PState) (v : List Char) :
    processTrimmed st (str "DUE:" ++ v) = handleDue st v := by
  have hne : str "DUE:" ++ v ≠ [] := by simp [str]
  have hsplit : splitAtColon (str "DUE:" ++ v) = some (str "DUE", v) := by
    rw [show str "DUE:" ++ v = str "DUE" ++ ':' :: v from rfl]
    exact splitAtColon_append _ _ (by decide)
  rw [processTrimmed, if_neg hne, hsplit]
  rfl

theorem processLine_DUE (st : PState) (v : List Char) (hv : noTrailWs v = true) :
    processLine st (str "DUE:" ++ v) = handleDue st v := by
  rw [processLine, show str "DUE:" ++ v = ('D' :: str "UE:") ++ v from rfl,
    rustTrim_propline 'D' (str "UE:") v (by decide) (by decide) hv]
  exact processTrimmed_DUE st v

theorem processTrimmed_CREATED (st : PState) (v : List Char) :
    processTrimmed st (str "CREATED:" ++ v) = handleCreated st v := by
  have hne : str "CREATED:" ++ v ≠ [] := by simp [str]
  have hsplit : splitAtColon (str "CREATED:" ++ v) = some (str "CREATED", v) := by
    rw [show str "CREATED:" ++ v = str "CREATED" ++ ':' :: v from rfl]
    exact splitAtColon_append _ _ (by decide)
  rw [processTrimmed, if_neg hne, hsplit]
  rfl

theorem processLine_CREATED (st : PState) (v : List Char) (hv : noTrailWs v = true) :
    processLine st (str "CREATED:" ++ v) = handleCreated st v := by
  rw [processLine, show str "CREATED:" ++ v = ('C' :: str "REATED:") ++ v from rfl,
    rustTrim_propline 'C' (str "REATED:") v (by decide) (by decide) hv]
  exact processTrimmed_CREATED st v

theorem processTrimmed_DTSTAMP (st : PState) (v : List Char) :
    processTrimmed st (str "DTSTAMP:" ++ v) = handleCreated st v := by
  have hne : str "DTSTAMP:" ++ v ≠ [] := by simp [str]
  have hsplit : splitAtColon (str "DTSTAMP:" ++ v) = some (str "DTSTAMP", v) := by
    rw [show str "DTSTAMP:" ++ v = str "DTSTAMP" ++ ':' :: v from rfl]
    exact splitAtColon_append _ _ (by decide)
  rw [processTrimmed, if_neg hne, hsplit]
  rfl

theorem processLine_DTSTAMP (st : PState) (v : List Char) (hv : noTrailWs v = true) :
    processLine st (str "DTSTAMP:" ++ v) = handleCreated st v := by
  rw [processLine, show str "DTSTAMP:" ++ v = ('D' :: str "TSTAMP:") ++ v from rfl,
    rustTrim_propline 'D' (str "TSTAMP:") v (by decide) (by decide) hv]
  exact processTrimmed_DTSTAMP st v


/-- Claim C2 (code bug): the specification says parsing never fails or panics
on any input, including multi-byte UTF-8 in a DUE value.  The DUE handler
byte-slices the first eight bytes of the value; on the nine-byte value
1234567é byte index 8 falls inside the two-byte character é, so the Rust
byte-slice panics and loading the calendar aborts instead of producing a
record.  In the model the panic is the `none` result. -/
theorem C2_theorem :
    load_todos_from_calendar (str "BEGIN:VTODO\nUID:a\nDUE:1234567é\nEND:VTODO")
      (str "cal") (fun _ => str "u") = none := by decide

/-- Claim C4: the specification predicts a count of 4 and three extracted
record blocks for three complete begin/end pairs plus a trailing unmatched
begin-marker.  The count is indeed 4, but full parsing extracts four record
blocks, not three: the scanning loop also emits a block for the trailing
unmatched begin-marker, collecting all remaining lines. -/
theorem C4_counterexample :
    count_todos_in_file (str "BEGIN:VTODO\nUID:a\nEND:VTODO\nBEGIN:VTODO\nUID:b\nEND:VTODO\nBEGIN:VTODO\nUID:c\nEND:VTODO\nBEGIN:VTODO\nUID:d") = 4 ∧
    (scanBlocks none (rustLines (str "BEGIN:VTODO\nUID:a\nEND:VTODO\nBEGIN:VTODO\nUID:b\nEND:VTODO\nBEGIN:VTODO\nUID:c\nEND:VTODO\nBEGIN:VTODO\nUID:d"))).length ≠ 3 := by
  exact ⟨by decide, by decide⟩

/-- Claim C4 (amended): for text with three complete begin/end marker pairs
followed by one trailing unmatched begin-marker, the count-only scan returns 4
and full parsing extracts four record blocks — the trailing unmatched
begin-marker yields a block holding the remaining lines — each parsed into
exactly one task record. -/
theorem C4_theorem :
    count_todos_in_file (str "BEGIN:VTODO\nUID:a\nEND:VTODO\nBEGIN:VTODO\nUID:b\nEND:VTODO\nBEGIN:VTODO\nUID:c\nEND:VTODO\nBEGIN:VTODO\nUID:d") = 4 ∧
    (scanBlocks none (rustLines (str "BEGIN:VTODO\nUID:a\nEND:VTODO\nBEGIN:VTODO\nUID:b\nEND:VTODO\nBEGIN:VTODO\nUID:c\nEND:VTODO\nBEGIN:VTODO\nUID:d"))).length = 4 ∧
    (load_todos_from_calendar (str "BEGIN:VTODO\nUID:a\nEND:VTODO\nBEGIN:VTODO\nUID:b\nEND:VTODO\nBEGIN:VTODO\nUID:c\nEND:VTODO\nBEGIN:VTODO\nUID:d")
      (str "cal") (fun _ => str "u")).map List.length = some 4 := by
  exact ⟨by decide, by decide, by decide⟩

/-- Claim C5: the specification says the count-only scan increments on every
begin-marker line independent of matching end-markers.  This is false: a
begin-marker line that sits inside a still-open block is consumed by the inner
skip-to-end-marker loop and never counted.  The text with line sequence
BEGIN:VTODO, BEGIN:VTODO, END:VTODO has two begin-marker lines but counts as
one. -/
theorem C5_counterexample :
    count_todos_in_file (str "BEGIN:VTODO\nBEGIN:VTODO\nEND:VTODO") = 1 ∧
    ((rustLines (str "BEGIN:VTODO\nBEGIN:VTODO\nEND:VTODO")).filter
      (fun l => rustTrim l == beginMarker)).length = 2 := by
  exact ⟨by decide, by decide⟩

/-- Claim C5 (amended): the count-only scan counts exactly the begin-markers
that open a record block, that is, those encountered while no block is open; a
counted begin-marker needs no matching end-marker, so for every input text the
count equals the number of record blocks full extraction yields, including a
trailing unterminated block. -/
theorem C5_theorem (content : List Char) :
    count_todos_in_file content = (scanBlocks none (rustLines content)).length :=
  (countScan_scanBlocks (rustLines content)).1

/-- Claim C6: the specification maps any PRIORITY value with numeric value 1-3
to high.  This is false: the code matches the literal one-digit strings only.
The value 01 parses numerically to 1 yet yields medium. -/
theorem C6_counterexample :
    parse_u32 (str "01") = some 1 ∧
    (parse_vtodo_from_lines [str "PRIORITY:01"] (str "cal") (str "u")).map Todo.priority
      = some (str "medium") := by
  exact ⟨by decide, by decide⟩

/-- Claim C6 (amended): a PRIORITY value equal to one of the literal strings
1, 2, 3 yields high; 4, 5, 6 yields medium; 7, 8, 9 yields low; and any other
value — including other spellings of those numerals such as 01 or +1, the
empty string, 0, 10 and abc — yields medium.  The value is taken from the
trimmed property line, so it must carry no trailing whitespace of its own. -/
theorem C6_theorem (v cal fresh : List Char) (hv : noTrailWs v = true) :
    (parse_vtodo_from_lines [str "PRIORITY:" ++ v] cal fresh).map Todo.priority
      = some (if v = str "1" ∨ v = str "2" ∨ v = str "3" then str "high"
        else if v = str "4" ∨ v = str "5" ∨ v = str "6" then str "medium"
        else if v = str "7" ∨ v = str "8" ∨ v = str "9" then str "low"
        else str "medium") := by
  rw [parse_vtodo_from_lines, processLines, processLine_PRIORITY initPState v hv]
  rfl

/-- Witness for C6 at the out-of-range value 10. -/
theorem C6_witness :
    (parse_vtodo_from_lines [str "PRIORITY:" ++ str "10"] (str "cal") (str "u")).map
      Todo.priority = some (str "medium") := by
  rw [C6_theorem (str "10") (str "cal") (str "u") (by decide)]
  decide


theorem parse_vtodo_fresh_ext (b : List (List Char)) (cal fr1 fr2 : List Char)
    (h : (processLines initPState b).map PState.id ≠ some []) :
    parse_vtodo_from_lines b cal fr1 = parse_vtodo_from_lines b cal fr2 := by
  rw [parse_vtodo_from_lines, parse_vtodo_from_lines]
  cases hp : processLines initPState b with
  | none => rfl
  | some st =>
    rw [hp] at h
    simp at h
    simp [Option.map, if_neg h]

theorem parseBlocks_fresh_ext (cal : List Char) (f1 f2 : Nat → List Char) :
    ∀ (bs : List (List (List Char))),
      (∀ b ∈ bs, (processLines initPState b).map PState.id ≠ some []) →
      ∀ i j, parseBlocks cal f1 i bs = parseBlocks cal f2 j bs := by
  intro bs
  induction bs with
  | nil => intro _ i j; rfl
  | cons b rest ih =>
    intro h i j
    rw [parseBlocks, parseBlocks,
      parse_vtodo_fresh_ext b cal (f1 i) (f2 j) (h b (List.mem_cons_self b rest))]
    cases parse_vtodo_from_lines b cal (f2 j) with
    | none => rfl
    | some t =>
      rw [ih (fun x hx => h x (List.mem_cons_of_mem b hx)) (i + 1) (j + 1)]

/-- Claim C7: the specification calls both calendar operations pure functions
of their inputs, explicitly including the id of records parsed from blocks
lacking a UID and the DTSTAMP lines of serialized output.  This is false on
the code: a block without a UID draws a random version-4 UUID and every
serialized block carries a DTSTAMP read from the wall clock, so two
invocations on identical inputs produce different outputs.  In the model the
UUID draw and the instant are explicit oracle parameters; two draws (or two
instants) that differ give different outputs on the same input. -/
theorem C7_counterexample :
    parse_vtodo_from_lines [str "SUMMARY:hi"] (str "cal") (str "u1")
      ≠ parse_vtodo_from_lines [str "SUMMARY:hi"] (str "cal") (str "u2") ∧
    save_todos_to_calendar
        [⟨str "a", str "T", [], false, str "medium", none, none, none, str "c"⟩]
        ⟨⟨2025, 1, 1⟩, 0, 0, 0⟩
      ≠ save_todos_to_calendar
        [⟨str "a", str "T", [], false, str "medium", none, none, none, str "c"⟩]
        ⟨⟨2025, 1, 1⟩, 0, 0, 1⟩ := by
  exact ⟨by decide, by decide⟩

/-- Claim C7 (amended): both operations are pure once the identifier source
and the serialization instant are fixed as inputs; moreover parsing does not
depend on the identifier source at all when every scanned block sets a
nonempty UID: loading the same content with any two identifier sources yields
identical record lists. -/
theorem C7_theorem (content cal : List Char) (f1 f2 : Nat → List Char)
    (h : ∀ b ∈ scanBlocks none (rustLines content),
      (processLines initPState b).map PState.id ≠ some []) :
    load_todos_from_calendar content cal f1 = load_todos_from_calendar content cal f2 := by
  rw [load_todos_from_calendar, load_todos_from_calendar]
  exact parseBlocks_fresh_ext cal f1 f2 _ h 0 0

/-- Witness for C7: a one-block calendar with a UID loads identically under
two different identifier sources. -/
theorem C7_witness :
    load_todos_from_calendar (str "BEGIN:VTODO\nUID:a\nEND:VTODO") (str "cal")
        (fun _ => str "u1")
      = load_todos_from_calendar (str "BEGIN:VTODO\nUID:a\nEND:VTODO") (str "cal")
        (fun _ => str "u2") :=
  C7_theorem (str "BEGIN:VTODO\nUID:a\nEND:VTODO") (str "cal") _ _ (by decide)

theorem parseBlocks_spec (cal : List Char) (fresh : Nat → List Char) :
    ∀ (bs : List (List (List Char))) (k : Nat) (ts : List Todo),
      parseBlocks cal fresh k bs = some ts →
      ts.length = bs.length ∧
      ∀ i : Nat, (bs[i]?).bind (fun b => parse_vtodo_from_lines b cal (fresh (k + i)))
        = ts[i]? := by
  intro bs
  induction bs with
  | nil =>
    intro k ts h
    rw [parseBlocks] at h
    cases h
    exact ⟨rfl, fun i => by simp⟩
  | cons b rest ih =>
    intro k ts h
    rw [parseBlocks] at h
    cases hp : parse_vtodo_from_lines b cal (fresh k) with
    | none => rw [hp] at h; cases h
    | some t =>
      rw [hp] at h
      cases hr : parseBlocks cal fresh (k + 1) rest with
      | none => rw [hr] at h; cases h
      | some ts2 =>
        rw [hr] at h
        simp at h
        subst h
        have ihs := ih (k + 1) ts2 hr
        refine ⟨by simp [ihs.1], ?_⟩
        intro i
        cases i with
        | zero => simpa using hp
        | succ m =>
          have := ihs.2 m
          simpa [show k + (m + 1) = k + 1 + m by omega] using this

/-- Claim C10: whenever loading a calendar returns a record list (that is,
whenever no panic aborts it), the list contains exactly one record per
extracted record block and in the same order: the i-th record is the parse of
the i-th block. -/
theorem C10_theorem (content cal : List Char) (fresh : Nat → List Char) (l : List Todo)
    (h : load_todos_from_calendar content cal fresh = some l) :
    l.length = (scanBlocks none (rustLines content)).length ∧
    ∀ i : Nat, ((scanBlocks none (rustLines content))[i]?).bind
        (fun b => parse_vtodo_from_lines b cal (fresh i)) = l[i]? := by
  rw [load_todos_from_calendar] at h
  have hs := parseBlocks_spec cal fresh _ 0 l h
  exact ⟨hs.1, fun i => by simpa using hs.2 i⟩

/-- Witness for C10 on a two-block calendar. -/
theorem C10_witness :
    ([(⟨str "a", str "Untitled Task", [], false, str "medium", none, none, none,
        str "cal"⟩ : Todo),
      ⟨str "b", str "Untitled Task", [], false, str "medium", none, none, none,
        str "cal"⟩] : List Todo).length
      = (scanBlocks none (rustLines
          (str "BEGIN:VTODO\nUID:a\nEND:VTODO\nBEGIN:VTODO\nUID:b\nEND:VTODO"))).length ∧
    ((scanBlocks none (rustLines
        (str "BEGIN:VTODO\nUID:a\nEND:VTODO\nBEGIN:VTODO\nUID:b\nEND:VTODO")))[0]?).bind
        (fun b => parse_vtodo_from_lines b (str "cal") ((fun _ => str "u") 0))
      = ([(⟨str "a", str "Untitled Task", [], false, str "medium", none, none, none,
          str "cal"⟩ : Todo),
        ⟨str "b", str "Untitled Task", [], false, str "medium", none, none, none,
          str "cal"⟩] : List Todo)[0]? ∧
    ((scanBlocks none (rustLines
        (str "BEGIN:VTODO\nUID:a\nEND:VTODO\nBEGIN:VTODO\nUID:b\nEND:VTODO")))[1]?).bind
        (fun b => parse_vtodo_from_lines b (str "cal") ((fun _ => str "u") 1))
      = ([(⟨str "a", str "Untitled Task", [], false, str "medium", none, none, none,
          str "cal"⟩ : Todo),
        ⟨str "b", str "Untitled Task", [], false, str "medium", none, none, none,
          str "cal"⟩] : List Todo)[1]? := by
  have h := C10_theorem
    (str "BEGIN:VTODO\nUID:a\nEND:VTODO\nBEGIN:VTODO\nUID:b\nEND:VTODO") (str "cal")
    (fun _ => str "u")
    [⟨str "a", str "Untitled Task", [], false, str "medium", none, none, none, str "cal"⟩,
     ⟨str "b", str "Untitled Task", [], false, str "medium", none, none, none, str "cal"⟩]
    (by decide)
  exact ⟨h.1, h.2 0, h.2 1⟩


/-! Compact date and date-time values of serialized shape. -/

theorem fmt2_ascii (n : Nat) : ∀ c ∈ fmt2 n, charBytes c = 1 :=
  fun c hc => isDigit_ascii (fmt2_digits n c hc)

theorem fmt4_ascii (n : Nat) : ∀ c ∈ fmt4 n, charBytes c = 1 :=
  fun c hc => isDigit_ascii (fmt4_digits n c hc)

theorem handleDue_compact (st : PState) (y m d : Nat) (hy : y < 10000) (hm : m < 100)
    (hd : d < 100) (hymd : from_ymd_opt (y : Int) m d = some ⟨(y : Int), m, d⟩) :
    handleDue st (fmt4 y ++ (fmt2 m ++ fmt2 d))
      = some { st with due_date := some (fmtIsoDate ⟨(y : Int), m, d⟩) } := by
  have hdig : ∀ c ∈ fmt4 y ++ (fmt2 m ++ fmt2 d), isDigitChar c = true := by
    intro c hc
    rcases List.mem_append.mp hc with h1 | h2
    · exact fmt4_digits y c h1
    · rcases List.mem_append.mp h2 with h3 | h4
      · exact fmt2_digits m c h3
      · exact fmt2_digits d c h4
  have hasc : ∀ c ∈ fmt4 y ++ (fmt2 m ++ fmt2 d), charBytes c = 1 :=
    fun c hc => isDigit_ascii (hdig c hc)
  have hl4 : (fmt4 y).length = 4 := fmt4_len y hy
  have hlm : (fmt2 m).length = 2 := fmt2_len m hm
  have hld : (fmt2 d).length = 2 := fmt2_len d hd
  have hlen : (fmt4 y ++ (fmt2 m ++ fmt2 d)).length = 8 := by
    simp [hl4, hlm, hld]
  have hblen : byteLength (fmt4 y ++ (fmt2 m ++ fmt2 d)) = 8 := by
    rw [byteLength_ascii _ hasc, hlen]
  have hs08 : byteSlice 0 8 (fmt4 y ++ (fmt2 m ++ fmt2 d))
      = some (fmt4 y ++ (fmt2 m ++ fmt2 d)) := by
    rw [byteSlice_ascii _ hasc 0 8 (by omega) (by rw [hlen])]
    simp [List.take_of_length_le (le_of_eq hlen)]
  have hs04 : byteSlice 0 4 (fmt4 y ++ (fmt2 m ++ fmt2 d)) = some (fmt4 y) := by
    rw [byteSlice_ascii _ hasc 0 4 (by omega) (by rw [hlen]; omega)]
    simp [List.take_left' hl4]
  have hs46 : byteSlice 4 6 (fmt4 y ++ (fmt2 m ++ fmt2 d)) = some (fmt2 m) := by
    rw [byteSlice_ascii _ hasc 4 6 (by omega) (by rw [hlen]; omega)]
    rw [List.drop_left' hl4]
    rw [show (6 : Nat) - 4 = 2 from rfl, List.take_left' hlm]
  have hs68 : byteSlice 6 8 (fmt4 y ++ (fmt2 m ++ fmt2 d)) = some (fmt2 d) := by
    rw [byteSlice_ascii _ hasc 6 8 (by omega) (by rw [hlen])]
    rw [show fmt4 y ++ (fmt2 m ++ fmt2 d) = (fmt4 y ++ fmt2 m) ++ fmt2 d by simp]
    rw [List.drop_left' (by simp [hl4, hlm] : (fmt4 y ++ fmt2 m).length = 6)]
    rw [show (8 : Nat) - 6 = 2 from rfl, List.take_of_length_le (le_of_eq hld)]
  rw [handleDue, hblen]
  rw [if_pos (by omega : (8 : Nat) ≤ 8)]
  simp only [hs08, hs04, parse_i32_fmt4, hs46, parse_u32_fmt2, hs68, hymd]

theorem handleCreated_datetime (st : PState) (y mo d h mi sec : Nat) (hy : y < 10000)
    (hmo : mo < 100) (hd : d < 100) (hh : h < 100) (hmi : mi < 100) (hsec : sec < 100)
    (hymd : from_ymd_opt (y : Int) mo d = some ⟨(y : Int), mo, d⟩)
    (hhms : and_hms_opt ⟨(y : Int), mo, d⟩ h mi sec = some ⟨⟨(y : Int), mo, d⟩, h, mi, sec⟩) :
    handleCreated st
        ((fmt4 y ++ (fmt2 mo ++ fmt2 d)) ++ ('T' :: ((fmt2 h ++ (fmt2 mi ++ fmt2 sec)) ++ ['Z'])))
      = some { st with
          created_at := some (fmtIsoDateTime ⟨⟨(y : Int), mo, d⟩, h, mi, sec⟩) } := by
  have hdig8 : ∀ c ∈ fmt4 y ++ (fmt2 mo ++ fmt2 d), isDigitChar c = true := by
    intro c hc
    rcases List.mem_append.mp hc with h1 | h2
    · exact fmt4_digits y c h1
    · rcases List.mem_append.mp h2 with h3 | h4
      · exact fmt2_digits mo c h3
      · exact fmt2_digits d c h4
  have hdig6 : ∀ c ∈ fmt2 h ++ (fmt2 mi ++ fmt2 sec), isDigitChar c = true := by
    intro c hc
    rcases List.mem_append.mp hc with h1 | h2
    · exact fmt2_digits h c h1
    · rcases List.mem_append.mp h2 with h3 | h4
      · exact fmt2_digits mi c h3
      · exact fmt2_digits sec c h4
  have hasc : ∀ c ∈ (fmt4 y ++ (fmt2 mo ++ fmt2 d))
      ++ ('T' :: ((fmt2 h ++ (fmt2 mi ++ fmt2 sec)) ++ ['Z'])), charBytes c = 1 := by
    intro c hc
    rcases List.mem_append.mp hc with h1 | h2
    · exact isDigit_ascii (hdig8 c h1)
    · rcases List.mem_cons.mp h2 with e | h3
      · subst e; rfl
      · rcases List.mem_append.mp h3 with h4 | h5
        · exact isDigit_ascii (hdig6 c h4)
        · simp at h5
          subst h5
          rfl
  have hl4 : (fmt4 y).length = 4 := fmt4_len y hy
  have hlmo : (fmt2 mo).length = 2 := fmt2_len mo hmo
  have hld : (fmt2 d).length = 2 := fmt2_len d hd
  have hlh : (fmt2 h).length = 2 := fmt2_len h hh
  have hlmi : (fmt2 mi).length = 2 := fmt2_len mi hmi
  have hlsec : (fmt2 sec).length = 2 := fmt2_len sec hsec
  have hl8 : (fmt4 y ++ (fmt2 mo ++ fmt2 d)).length = 8 := by simp [hl4, hlmo, hld]
  have hl6 : (fmt2 h ++ (fmt2 mi ++ fmt2 sec)).length = 6 := by simp [hlh, hlmi, hlsec]
  have hlen : ((fmt4 y ++ (fmt2 mo ++ fmt2 d))
      ++ ('T' :: ((fmt2 h ++ (fmt2 mi ++ fmt2 sec)) ++ ['Z']))).length = 16 := by
    simp only [List.length_append, List.length_cons, hl8, hl6]
    rfl
  have hblen : byteLength ((fmt4 y ++ (fmt2 mo ++ fmt2 d))
      ++ ('T' :: ((fmt2 h ++ (fmt2 mi ++ fmt2 sec)) ++ ['Z']))) = 16 := by
    rw [byteLength_ascii _ hasc, hlen]
  have hcontains : ((fmt4 y ++ (fmt2 mo ++ fmt2 d))
      ++ ('T' :: ((fmt2 h ++ (fmt2 mi ++ fmt2 sec)) ++ ['Z']))).contains 'T' = true := by
    simp [List.contains]
  have hs08 : byteSlice 0 8 ((fmt4 y ++ (fmt2 mo ++ fmt2 d))
      ++ ('T' :: ((fmt2 h ++ (fmt2 mi ++ fmt2 sec)) ++ ['Z'])))
      = some (fmt4 y ++ (fmt2 mo ++ fmt2 d)) := by
    rw [byteSlice_ascii _ hasc 0 8 (by omega) (by rw [hlen]; omega)]
    rw [show (8 : Nat) - 0 = 8 from rfl, List.drop_zero, List.take_left' hl8]
  have hs915 : byteSlice 9 15 ((fmt4 y ++ (fmt2 mo ++ fmt2 d))
      ++ ('T' :: ((fmt2 h ++ (fmt2 mi ++ fmt2 sec)) ++ ['Z'])))
      = some (fmt2 h ++ (fmt2 mi ++ fmt2 sec)) := by
    rw [byteSlice_ascii _ hasc 9 15 (by omega) (by rw [hlen]; omega)]
    rw [show (fmt4 y ++ (fmt2 mo ++ fmt2 d))
        ++ ('T' :: ((fmt2 h ++ (fmt2 mi ++ fmt2 sec)) ++ ['Z']))
      = ((fmt4 y ++ (fmt2 mo ++ fmt2 d)) ++ ['T'])
        ++ ((fmt2 h ++ (fmt2 mi ++ fmt2 sec)) ++ ['Z']) by simp]
    rw [List.drop_left' (by
      simp only [List.length_append, hl8]
      rfl : ((fmt4 y ++ (fmt2 mo ++ fmt2 d)) ++ ['T']).length = 9)]
    rw [show (15 : Nat) - 9 = 6 from rfl, List.take_left' hl6]
  have hasc8 : ∀ c ∈ fmt4 y ++ (fmt2 mo ++ fmt2 d), charBytes c = 1 :=
    fun c hc => isDigit_ascii (hdig8 c hc)
  have hasc6 : ∀ c ∈ fmt2 h ++ (fmt2 mi ++ fmt2 sec), charBytes c = 1 :=
    fun c hc => isDigit_ascii (hdig6 c hc)
  have hs04 : byteSlice 0 4 (fmt4 y ++ (fmt2 mo ++ fmt2 d)) = some (fmt4 y) := by
    rw [byteSlice_ascii _ hasc8 0 4 (by omega) (by rw [hl8]; omega)]
    simp [List.take_left' hl4]
  have hs46 : byteSlice 4 6 (fmt4 y ++ (fmt2 mo ++ fmt2 d)) = some (fmt2 mo) := by
    rw [byteSlice_ascii _ hasc8 4 6 (by omega) (by rw [hl8]; omega)]
    rw [List.drop_left' hl4]
    rw [show (6 : Nat) - 4 = 2 from rfl, List.take_left' hlmo]
  have hs68 : byteSlice 6 8 (fmt4 y ++ (fmt2 mo ++ fmt2 d)) = some (fmt2 d) := by
    rw [byteSlice_ascii _ hasc8 6 8 (by omega) (by rw [hl8])]
    rw [show fmt4 y ++ (fmt2 mo ++ fmt2 d) = (fmt4 y ++ fmt2 mo) ++ fmt2 d by simp]
    rw [List.drop_left' (by simp [hl4, hlmo] : (fmt4 y ++ fmt2 mo).length = 6)]
    rw [show (8 : Nat) - 6 = 2 from rfl, List.take_of_length_le (le_of_eq hld)]
  have ht02 : byteSlice 0 2 (fmt2 h ++ (fmt2 mi ++ fmt2 sec)) = some (fmt2 h) := by
    rw [byteSlice_ascii _ hasc6 0 2 (by omega) (by rw [hl6]; omega)]
    simp [List.take_left' hlh]
  have ht24 : byteSlice 2 4 (fmt2 h ++ (fmt2 mi ++ fmt2 sec)) = some (fmt2 mi) := by
    rw [byteSlice_ascii _ hasc6 2 4 (by omega) (by rw [hl6]; omega)]
    rw [List.drop_left' hlh]
    rw [show (4 : Nat) - 2 = 2 from rfl, List.take_left' hlmi]
  have ht46 : byteSlice 4 6 (fmt2 h ++ (fmt2 mi ++ fmt2 sec)) = some (fmt2 sec) := by
    rw [byteSlice_ascii _ hasc6 4 6 (by omega) (by rw [hl6])]
    rw [show fmt2 h ++ (fmt2 mi ++ fmt2 sec) = (fmt2 h ++ fmt2 mi) ++ fmt2 sec by simp]
    rw [List.drop_left' (by simp [hlh, hlmi] : (fmt2 h ++ fmt2 mi).length = 4)]
    rw [show (6 : Nat) - 4 = 2 from rfl, List.take_of_length_le (le_of_eq hlsec)]
  have hcond : (15 : Nat) ≤ byteLength ((fmt4 y ++ (fmt2 mo ++ fmt2 d))
      ++ ('T' :: ((fmt2 h ++ (fmt2 mi ++ fmt2 sec)) ++ ['Z'])))
      ∧ ((fmt4 y ++ (fmt2 mo ++ fmt2 d))
        ++ ('T' :: ((fmt2 h ++ (fmt2 mi ++ fmt2 sec)) ++ ['Z']))).contains 'T' = true := by
    constructor
    · rw [hblen]
      omega
    · exact hcontains
  rw [handleCreated, if_pos hcond]
  simp only [hs08, hs915, hs04, parse_i32_fmt4, hs46, parse_u32_fmt2, hs68, ht02, ht24, ht46,
    hymd, Option.some_bind, hhms]

theorem handleCreated_date8 (st : PState) (y m d : Nat) (hy : y < 10000) (hm : m < 100)
    (hd : d < 100) (hymd : from_ymd_opt (y : Int) m d = some ⟨(y : Int), m, d⟩) :
    handleCreated st (fmt4 y ++ (fmt2 m ++ fmt2 d))
      = some { st with created_at := some (fmtIsoDate ⟨(y : Int), m, d⟩) } := by
  have hdig : ∀ c ∈ fmt4 y ++ (fmt2 m ++ fmt2 d), isDigitChar c = true := by
    intro c hc
    rcases List.mem_append.mp hc with h1 | h2
    · exact fmt4_digits y c h1
    · rcases List.mem_append.mp h2 with h3 | h4
      · exact fmt2_digits m c h3
      · exact fmt2_digits d c h4
  have hasc : ∀ c ∈ fmt4 y ++ (fmt2 m ++ fmt2 d), charBytes c = 1 :=
    fun c hc => isDigit_ascii (hdig c hc)
  have hl4 : (fmt4 y).length = 4 := fmt4_len y hy
  have hlm : (fmt2 m).length = 2 := fmt2_len m hm
  have hld : (fmt2 d).length = 2 := fmt2_len d hd
  have hlen : (fmt4 y ++ (fmt2 m ++ fmt2 d)).length = 8 := by
    simp [hl4, hlm, hld]
  have hblen : byteLength (fmt4 y ++ (fmt2 m ++ fmt2 d)) = 8 := by
    rw [byteLength_ascii _ hasc, hlen]
  have hs04 : byteSlice 0 4 (fmt4 y ++ (fmt2 m ++ fmt2 d)) = some (fmt4 y) := by
    rw [byteSlice_ascii _ hasc 0 4 (by omega) (by rw [hlen]; omega)]
    simp [List.take_left' hl4]
  have hs46 : byteSlice 4 6 (fmt4 y ++ (fmt2 m ++ fmt2 d)) = some (fmt2 m) := by
    rw [byteSlice_ascii _ hasc 4 6 (by omega) (by rw [hlen]; omega)]
    rw [List.drop_left' hl4]
    rw [show (6 : Nat) - 4 = 2 from rfl, List.take_left' hlm]
  have hs68 : byteSlice 6 8 (fmt4 y ++ (fmt2 m ++ fmt2 d)) = some (fmt2 d) := by
    rw [byteSlice_ascii _ hasc 6 8 (by omega) (by rw [hlen])]
    rw [show fmt4 y ++ (fmt2 m ++ fmt2 d) = (fmt4 y ++ fmt2 m) ++ fmt2 d by simp]
    rw [List.drop_left' (by simp [hl4, hlm] : (fmt4 y ++ fmt2 m).length = 6)]
    rw [show (8 : Nat) - 6 = 2 from rfl, List.take_of_length_le (le_of_eq hld)]
  have hncond : ¬((15 : Nat) ≤ byteLength (fmt4 y ++ (fmt2 m ++ fmt2 d))
      ∧ (fmt4 y ++ (fmt2 m ++ fmt2 d)).contains 'T' = true) := by
    intro hco
    rw [hblen] at hco
    omega
  rw [handleCreated, if_neg hncond, hblen]
  rw [if_pos rfl]
  simp only [hs04, parse_i32_fmt4, hs46, parse_u32_fmt2, hs68, hymd]

theorem daysInMonth_le (y : Int) (m : Nat) : daysInMonth y m ≤ 31 := by
  rw [daysInMonth]
  split_ifs <;> omega

theorem noTrailWs_compactDateTime (dt : RDateTime) : noTrailWs (compactDateTime dt) = true := by
  have h1 : (compactDateTime dt).getLast? = some 'Z' := by
    rw [compactDateTime, List.getLast?_append_of_ne_nil _ (by simp)]
    rfl
  simp [noTrailWs, h1, isWhite]

theorem compactDateTime_shape (y mo d h mi s : Nat) :
    compactDateTime ⟨⟨(y : Int), mo, d⟩, h, mi, s⟩
      = (fmt4 y ++ (fmt2 mo ++ fmt2 d)) ++ ('T' :: ((fmt2 h ++ (fmt2 mi ++ fmt2 s)) ++ ['Z'])) := by
  simp [compactDateTime, compactDate]

/-- Claim C9: CREATED and DTSTAMP property lines both write the created_at
field, and when a block contains both, the line encountered later in
top-to-bottom scan order wins.  For any two valid instants, a block carrying a
CREATED line with the first instant followed by a DTSTAMP line with the second
parses to a created_at equal to the second instant in second-precision ISO
form. -/
theorem C9_theorem (y1 mo1 d1 h1 mi1 s1 y2 mo2 d2 h2 mi2 s2 : Nat) (cal fresh : List Char)
    (hv1 : validNow ⟨⟨(y1 : Int), mo1, d1⟩, h1, mi1, s1⟩ = true)
    (hv2 : validNow ⟨⟨(y2 : Int), mo2, d2⟩, h2, mi2, s2⟩ = true) :
    (parse_vtodo_from_lines
        [str "CREATED:" ++ compactDateTime ⟨⟨(y1 : Int), mo1, d1⟩, h1, mi1, s1⟩,
         str "DTSTAMP:" ++ compactDateTime ⟨⟨(y2 : Int), mo2, d2⟩, h2, mi2, s2⟩]
        cal fresh).map Todo.created_at
      = some (some (fmtIsoDateTime ⟨⟨(y2 : Int), mo2, d2⟩, h2, mi2, s2⟩)) := by
  simp only [validNow, Bool.and_eq_true, decide_eq_true_eq] at hv1 hv2
  obtain ⟨⟨⟨⟨hy01, hy91⟩, hmo11, hmo121⟩, hd11, hdd1⟩, ⟨hh1, hmi1h⟩, hs1h⟩ := hv1
  obtain ⟨⟨⟨⟨hy02, hy92⟩, hmo12, hmo122⟩, hd12, hdd2⟩, ⟨hh2, hmi2h⟩, hs2h⟩ := hv2
  have hymd1 : from_ymd_opt (y1 : Int) mo1 d1 = some ⟨(y1 : Int), mo1, d1⟩ := by
    rw [from_ymd_opt, if_pos ⟨hmo11, hmo121, hd11, hdd1⟩]
  have hhms1 : and_hms_opt ⟨(y1 : Int), mo1, d1⟩ h1 mi1 s1
      = some ⟨⟨(y1 : Int), mo1, d1⟩, h1, mi1, s1⟩ := by
    rw [and_hms_opt, if_pos ⟨hh1, hmi1h, hs1h⟩]
  have hymd2 : from_ymd_opt (y2 : Int) mo2 d2 = some ⟨(y2 : Int), mo2, d2⟩ := by
    rw [from_ymd_opt, if_pos ⟨hmo12, hmo122, hd12, hdd2⟩]
  have hhms2 : and_hms_opt ⟨(y2 : Int), mo2, d2⟩ h2 mi2 s2
      = some ⟨⟨(y2 : Int), mo2, d2⟩, h2, mi2, s2⟩ := by
    rw [and_hms_opt, if_pos ⟨hh2, hmi2h, hs2h⟩]
  have hday1 := daysInMonth_le (y1 : Int) mo1
  have hday2 := daysInMonth_le (y2 : Int) mo2
  have hp1 : processLine initPState
      (str "CREATED:" ++ compactDateTime ⟨⟨(y1 : Int), mo1, d1⟩, h1, mi1, s1⟩)
      = some { initPState with
          created_at := some (fmtIsoDateTime ⟨⟨(y1 : Int), mo1, d1⟩, h1, mi1, s1⟩) } := by
    rw [processLine_CREATED _ _ (noTrailWs_compactDateTime _), compactDateTime_shape]
    exact handleCreated_datetime initPState y1 mo1 d1 h1 mi1 s1 (by omega) (by omega)
      (by omega) (by omega) (by omega) (by omega) hymd1 hhms1
  have hp2 : processLine
      { initPState with
        created_at := some (fmtIsoDateTime ⟨⟨(y1 : Int), mo1, d1⟩, h1, mi1, s1⟩) }
      (str "DTSTAMP:" ++ compactDateTime ⟨⟨(y2 : Int), mo2, d2⟩, h2, mi2, s2⟩)
      = some { initPState with
          created_at := some (fmtIsoDateTime ⟨⟨(y2 : Int), mo2, d2⟩, h2, mi2, s2⟩) } := by
    rw [processLine_DTSTAMP _ _ (noTrailWs_compactDateTime _), compactDateTime_shape]
    exact handleCreated_datetime _ y2 mo2 d2 h2 mi2 s2 (by omega) (by omega)
      (by omega) (by omega) (by omega) (by omega) hymd2 hhms2
  rw [parse_vtodo_from_lines, processLines, hp1]
  show ((processLines { initPState with
      created_at := some (fmtIsoDateTime ⟨⟨(y1 : Int), mo1, d1⟩, h1, mi1, s1⟩) }
      [str "DTSTAMP:" ++ compactDateTime ⟨⟨(y2 : Int), mo2, d2⟩, h2, mi2, s2⟩]).map _).map
      Todo.created_at = _
  rw [processLines, hp2]
  rfl

/-- Witness for C9 at the instants of the specification example: CREATED
2025-01-01T12:00:00Z followed by DTSTAMP 2025-01-02T13:00:00Z parses to
created_at 2025-01-02T13:00:00. -/
theorem C9_witness :
    (parse_vtodo_from_lines
        [str "CREATED:" ++ compactDateTime ⟨⟨(2025 : Int), 1, 1⟩, 12, 0, 0⟩,
         str "DTSTAMP:" ++ compactDateTime ⟨⟨(2025 : Int), 1, 2⟩, 13, 0, 0⟩]
        (str "cal") (str "u")).map Todo.created_at
      = some (some (str "2025-01-02T13:00:00")) := by
  rw [show ((2025 : Int)) = ((2025 : Nat) : Int) from rfl]
  rw [C9_theorem 2025 1 1 12 0 0 2025 1 2 13 0 0 (str "cal") (str "u") (by decide) (by decide)]
  decide

theorem isDigit_ne_dash {c : Char} (h : isDigitChar c = true) : ¬(c = '-') := by
  intro e
  subst e
  exact absurd h (by decide)

theorem takeWhile_digits_append (a rest : List Char) (ha : ∀ c ∈ a, isDigitChar c = true) :
    (a ++ '-' :: rest).takeWhile isDigitChar = a ∧
    (a ++ '-' :: rest).dropWhile isDigitChar = '-' :: rest := by
  induction a with
  | nil =>
    constructor <;>
      simp [List.takeWhile_cons, List.dropWhile_cons, (by decide : isDigitChar '-' = false)]
  | cons c t ih =>
    have hc := ha c (List.mem_cons_self c t)
    have iht := ih (fun x hx => ha x (List.mem_cons_of_mem c hx))
    constructor
    · rw [List.cons_append, List.takeWhile_cons, hc]
      simp [iht.1]
    · rw [List.cons_append, List.dropWhile_cons, hc]
      simp [iht.2]

theorem isIsoDateCore_canonical (a : List Char) (m d : Nat)
    (ha : ∀ c ∈ a, isDigitChar c = true) (hne : a ≠ []) (hm : m < 100) (hd : d < 100) :
    isIsoDateCore (a ++ '-' :: (fmt2 m ++ ('-' :: fmt2 d))) = true := by
  obtain ⟨m1, m0, hm2⟩ := List.length_eq_two.mp (fmt2_len m hm)
  obtain ⟨d1, d0, hd2⟩ := List.length_eq_two.mp (fmt2_len d hd)
  have htw := takeWhile_digits_append a (fmt2 m ++ ('-' :: fmt2 d)) ha
  rw [isIsoDateCore, htw.1, htw.2, hm2, hd2]
  have hm1d := fmt2_digits m m1 (by rw [hm2]; simp)
  have hm0d := fmt2_digits m m0 (by rw [hm2]; simp)
  have hd1d := fmt2_digits d d1 (by rw [hd2]; simp)
  have hd0d := fmt2_digits d d0 (by rw [hd2]; simp)
  simp [hne, hm1d, hm0d, hd1d, hd0d]

theorem isIsoDateStr_fmt (date : RDate) (hm : date.month < 100) (hd : date.day < 100) :
    isIsoDateStr (fmtIsoDate date) = true := by
  have hshape : fmtIsoDate date
      = fmtYear date.year ++ '-' :: (fmt2 date.month ++ ('-' :: fmt2 date.day)) := by
    rw [fmtIsoDate]
    simp
  rw [hshape, fmtYear]
  by_cases hy : date.year < 0
  · rw [if_pos hy]
    rw [isIsoDateStr]
    rw [show (('-' :: fmt4 (-date.year).toNat)
        ++ '-' :: (fmt2 date.month ++ ('-' :: fmt2 date.day)))
      = '-' :: (fmt4 (-date.year).toNat
        ++ '-' :: (fmt2 date.month ++ ('-' :: fmt2 date.day))) from rfl]
    rw [if_pos (by rfl)]
    exact isIsoDateCore_canonical _ date.month date.day (fmt4_digits _) (fmt4_ne_nil _) hm hd
  · rw [if_neg hy]
    cases h4 : fmt4 date.year.toNat with
    | nil => exact absurd h4 (fmt4_ne_nil _)
    | cons c r =>
      have hcd : isDigitChar c = true := fmt4_digits date.year.toNat c (by rw [h4]; simp)
      rw [isIsoDateStr]
      rw [if_neg (by
        rw [List.cons_append]
        intro he
        simp at he
        exact isDigit_ne_dash hcd he)]
      rw [← h4]
      exact isIsoDateCore_canonical _ date.month date.day (fmt4_digits _) (fmt4_ne_nil _) hm hd

theorem isIsoDateTimeCore_canonical (a : List Char) (m d h mi sec : Nat)
    (ha : ∀ c ∈ a, isDigitChar c = true) (hne : a ≠ []) (hm : m < 100) (hd : d < 100)
    (hh : h < 100) (hmi : mi < 100) (hsec : sec < 100) :
    isIsoDateTimeCore (a ++ '-' :: (fmt2 m ++ ('-' :: (fmt2 d
      ++ 'T' :: (fmt2 h ++ ':' :: (fmt2 mi ++ ':' :: fmt2 sec)))))) = true := by
  obtain ⟨m1, m0, hm2⟩ := List.length_eq_two.mp (fmt2_len m hm)
  obtain ⟨d1, d0, hd2⟩ := List.length_eq_two.mp (fmt2_len d hd)
  obtain ⟨h1, h0, hh2⟩ := List.length_eq_two.mp (fmt2_len h hh)
  obtain ⟨i1, i0, hi2⟩ := List.length_eq_two.mp (fmt2_len mi hmi)
  obtain ⟨s1, s0, hs2⟩ := List.length_eq_two.mp (fmt2_len sec hsec)
  have htw := takeWhile_digits_append a
    (fmt2 m ++ ('-' :: (fmt2 d ++ 'T' :: (fmt2 h ++ ':' :: (fmt2 mi ++ ':' :: fmt2 sec))))) ha
  rw [isIsoDateTimeCore, htw.1, htw.2, hm2, hd2, hh2, hi2, hs2]
  have hm1d := fmt2_digits m m1 (by rw [hm2]; simp)
  have hm0d := fmt2_digits m m0 (by rw [hm2]; simp)
  have hd1d := fmt2_digits d d1 (by rw [hd2]; simp)
  have hd0d := fmt2_digits d d0 (by rw [hd2]; simp)
  have hh1d := fmt2_digits h h1 (by rw [hh2]; simp)
  have hh0d := fmt2_digits h h0 (by rw [hh2]; simp)
  have hi1d := fmt2_digits mi i1 (by rw [hi2]; simp)
  have hi0d := fmt2_digits mi i0 (by rw [hi2]; simp)
  have hs1d := fmt2_digits sec s1 (by rw [hs2]; simp)
  have hs0d := fmt2_digits sec s0 (by rw [hs2]; simp)
  simp [hne, hm1d, hm0d, hd1d, hd0d, hh1d, hh0d, hi1d, hi0d, hs1d, hs0d]

theorem isIsoDateTimeStr_fmt (dt : RDateTime) (hm : dt.date.month < 100)
    (hd : dt.date.day < 100) (hh : dt.hour < 100) (hmi : dt.minute < 100)
    (hsec : dt.second < 100) : isIsoDateTimeStr (fmtIsoDateTime dt) = true := by
  have hshape : fmtIsoDateTime dt
      = fmtYear dt.date.year ++ '-' :: (fmt2 dt.date.month ++ ('-' :: (fmt2 dt.date.day
        ++ 'T' :: (fmt2 dt.hour ++ ':' :: (fmt2 dt.minute ++ ':' :: fmt2 dt.second))))) := by
    rw [fmtIsoDateTime, fmtIsoDate]
    simp
  rw [hshape, fmtYear]
  by_cases hy : dt.date.year < 0
  · rw [if_pos hy]
    rw [isIsoDateTimeStr]
    rw [show (('-' :: fmt4 (-dt.date.year).toNat)
        ++ '-' :: (fmt2 dt.date.month ++ ('-' :: (fmt2 dt.date.day
          ++ 'T' :: (fmt2 dt.hour ++ ':' :: (fmt2 dt.minute ++ ':' :: fmt2 dt.second))))))
      = '-' :: (fmt4 (-dt.date.year).toNat
        ++ '-' :: (fmt2 dt.date.month ++ ('-' :: (fmt2 dt.date.day
          ++ 'T' :: (fmt2 dt.hour ++ ':' :: (fmt2 dt.minute ++ ':' :: fmt2 dt.second))))))
      from rfl]
    rw [if_pos (by rfl)]
    exact isIsoDateTimeCore_canonical _ _ _ _ _ _ (fmt4_digits _) (fmt4_ne_nil _)
      hm hd hh hmi hsec
  · rw [if_neg hy]
    cases h4 : fmt4 dt.date.year.toNat with
    | nil => exact absurd h4 (fmt4_ne_nil _)
    | cons c r =>
      have hcd : isDigitChar c = true := fmt4_digits dt.date.year.toNat c (by rw [h4]; simp)
      rw [isIsoDateTimeStr]
      rw [if_neg (by
        rw [List.cons_append]
        intro he
        simp at he
        exact isDigit_ne_dash hcd he)]
      rw [← h4]
      exact isIsoDateTimeCore_canonical _ _ _ _ _ _ (fmt4_digits _) (fmt4_ne_nil _)
        hm hd hh hmi hsec

theorem from_ymd_opt_bounds (y : Int) (m d : Nat) (date : RDate)
    (h : from_ymd_opt y m d = some date) :
    date = ⟨y, m, d⟩ ∧ 1 ≤ m ∧ m ≤ 12 ∧ 1 ≤ d ∧ d ≤ daysInMonth y m := by
  rw [from_ymd_opt] at h
  split_ifs at h with hc
  · cases h
    exact ⟨rfl, hc.1, hc.2.1, hc.2.2.1, hc.2.2.2⟩

theorem and_hms_opt_bounds (date : RDate) (h mi s : Nat) (dt : RDateTime)
    (he : and_hms_opt date h mi s = some dt) :
    dt = ⟨date, h, mi, s⟩ ∧ h ≤ 23 ∧ mi ≤ 59 ∧ s ≤ 59 := by
  rw [and_hms_opt] at he
  split_ifs at he with hc
  · cases he
    exact ⟨rfl, hc.1, hc.2.1, hc.2.2⟩

theorem handleDue_inv (st st' : PState) (v : List Char) (h : handleDue st v = some st')
    (hi : PInv st) : PInv st' := by
  rw [handleDue] at h
  by_cases h8 : 8 ≤ byteLength v
  · rw [if_pos h8] at h
    cases hx1 : byteSlice 0 8 v with
    | none =>
        simp only [hx1] at h
        exact Option.noConfusion h
    | some date_part =>
      simp only [hx1] at h
      cases hx2 : byteSlice 0 4 date_part with
      | none =>
        simp only [hx2] at h
        exact Option.noConfusion h
      | some ys =>
        simp only [hx2] at h
        cases hx3 : parse_i32 ys with
        | none =>
          simp only [hx3] at h
          injection h with h
          subst h
          exact hi
        | some year =>
          simp only [hx3] at h
          cases hx4 : byteSlice 4 6 date_part with
          | none =>
        simp only [hx4] at h
        exact Option.noConfusion h
          | some ms =>
            simp only [hx4] at h
            cases hx5 : parse_u32 ms with
            | none =>
              simp only [hx5] at h
              injection h with h
              subst h
              exact hi
            | some month =>
              simp only [hx5] at h
              cases hx6 : byteSlice 6 8 date_part with
              | none =>
        simp only [hx6] at h
        exact Option.noConfusion h
              | some ds =>
                simp only [hx6] at h
                cases hx7 : parse_u32 ds with
                | none =>
                  simp only [hx7] at h
                  injection h with h
                  subst h
                  exact hi
                | some day =>
                  simp only [hx7] at h
                  cases hx8 : from_ymd_opt year month day with
                  | none =>
                    simp only [hx8] at h
                    injection h with h
                    subst h
                    exact hi
                  | some date =>
                    simp only [hx8] at h
                    injection h with h
                    subst h
                    obtain ⟨hde, hm1, hm2, hd1, hd2⟩ := from_ymd_opt_bounds _ _ _ _ hx8
                    refine ⟨hi.1, ?_, hi.2.2⟩
                    intro ds2 hds2
                    simp at hds2
                    subst hds2
                    have hdle := daysInMonth_le year month
                    exact isIsoDateStr_fmt date (by rw [hde]; simp; omega)
                      (by rw [hde]; simp; omega)
  · rw [if_neg h8] at h
    injection h with h
    subst h
    exact hi

theorem handleCreated_inv (st st' : PState) (v : List Char)
    (h : handleCreated st v = some st') (hi : PInv st) : PInv st' := by
  rw [handleCreated] at h
  by_cases h15 : 15 ≤ byteLength v ∧ v.contains 'T' = true
  · rw [if_pos h15] at h
    cases hx1 : byteSlice 0 8 v with
    | none =>
        simp only [hx1] at h
        exact Option.noConfusion h
    | some date_part =>
      simp only [hx1] at h
      cases hx2 : byteSlice 9 15 v with
      | none =>
        simp only [hx2] at h
        exact Option.noConfusion h
      | some time_part =>
        simp only [hx2] at h
        cases hx3 : byteSlice 0 4 date_part with
        | none =>
        simp only [hx3] at h
        exact Option.noConfusion h
        | some ys =>
          simp only [hx3] at h
          cases hx4 : parse_i32 ys with
          | none =>
            simp only [hx4] at h
            injection h with h
            subst h
            exact hi
          | some year =>
            simp only [hx4] at h
            cases hx5 : byteSlice 4 6 date_part with
            | none =>
        simp only [hx5] at h
        exact Option.noConfusion h
            | some ms =>
              simp only [hx5] at h
              cases hx6 : parse_u32 ms with
              | none =>
                simp only [hx6] at h
                injection h with h
                subst h
                exact hi
              | some month =>
                simp only [hx6] at h
                cases hx7 : byteSlice 6 8 date_part with
                | none =>
        simp only [hx7] at h
        exact Option.noConfusion h
                | some ds =>
                  simp only [hx7] at h
                  cases hx8 : parse_u32 ds with
                  | none =>
                    simp only [hx8] at h
                    injection h with h
                    subst h
                    exact hi
                  | some day =>
                    simp only [hx8] at h
                    cases hx9 : byteSlice 0 2 time_part with
                    | none =>
        simp only [hx9] at h
        exact Option.noConfusion h
                    | some hs =>
                      simp only [hx9] at h
                      cases hx10 : parse_u32 hs with
                      | none =>
                        simp only [hx10] at h
                        injection h with h
                        subst h
                        exact hi
                      | some hour =>
                        simp only [hx10] at h
                        cases hx11 : byteSlice 2 4 time_part with
                        | none =>
        simp only [hx11] at h
        exact Option.noConfusion h
                        | some mins =>
                          simp only [hx11] at h
                          cases hx12 : parse_u32 mins with
                          | none =>
                            simp only [hx12] at h
                            injection h with h
                            subst h
                            exact hi
                          | some minute =>
                            simp only [hx12] at h
                            cases hx13 : byteSlice 4 6 time_part with
                            | none =>
        simp only [hx13] at h
        exact Option.noConfusion h
                            | some ss =>
                              simp only [hx13] at h
                              cases hx14 : parse_u32 ss with
                              | none =>
                                simp only [hx14] at h
                                injection h with h
                                subst h
                                exact hi
                              | some second =>
                                simp only [hx14] at h
                                cases hx15 : (from_ymd_opt year month day).bind
                                    (fun d => and_hms_opt d hour minute second) with
                                | none =>
                                  simp only [hx15] at h
                                  injection h with h
                                  subst h
                                  exact hi
                                | some dt =>
                                  simp only [hx15] at h
                                  injection h with h
                                  subst h
                                  rcases Option.bind_eq_some.mp hx15 with ⟨date, hdd, hhms⟩
                                  obtain ⟨hde, hm1, hm2, hd1, hd2⟩ :=
                                    from_ymd_opt_bounds _ _ _ _ hdd
                                  obtain ⟨hdte, hhh, hmm, hss⟩ :=
                                    and_hms_opt_bounds _ _ _ _ _ hhms
                                  refine ⟨hi.1, hi.2.1, ?_⟩
                                  intro cs hcs
                                  simp at hcs
                                  subst hcs
                                  right
                                  have hdle := daysInMonth_le year month
                                  apply isIsoDateTimeStr_fmt
                                  · rw [hdte, hde]; simp; omega
                                  · rw [hdte, hde]; simp; omega
                                  · rw [hdte]; simp; omega
                                  · rw [hdte]; simp; omega
                                  · rw [hdte]; simp; omega
  · rw [if_neg h15] at h
    by_cases h8 : byteLength v = 8
    · rw [if_pos h8] at h
      cases hx1 : byteSlice 0 4 v with
      | none =>
        simp only [hx1] at h
        exact Option.noConfusion h
      | some ys =>
        simp only [hx1] at h
        cases hx2 : parse_i32 ys with
        | none =>
          simp only [hx2] at h
          injection h with h
          subst h
          exact hi
        | some year =>
          simp only [hx2] at h
          cases hx3 : byteSlice 4 6 v with
          | none =>
        simp only [hx3] at h
        exact Option.noConfusion h
          | some ms =>
            simp only [hx3] at h
            cases hx4 : parse_u32 ms with
            | none =>
              simp only [hx4] at h
              injection h with h
              subst h
              exact hi
            | some month =>
              simp only [hx4] at h
              cases hx5 : byteSlice 6 8 v with
              | none =>
        simp only [hx5] at h
        exact Option.noConfusion h
              | some ds =>
                simp only [hx5] at h
                cases hx6 : parse_u32 ds with
                | none =>
                  simp only [hx6] at h
                  injection h with h
                  subst h
                  exact hi
                | some day =>
                  simp only [hx6] at h
                  cases hx7 : from_ymd_opt year month day with
                  | none =>
                    simp only [hx7] at h
                    injection h with h
                    subst h
                    exact hi
                  | some date =>
                    simp only [hx7] at h
                    injection h with h
                    subst h
                    obtain ⟨hde, hm1, hm2, hd1, hd2⟩ := from_ymd_opt_bounds _ _ _ _ hx7
                    refine ⟨hi.1, hi.2.1, ?_⟩
                    intro cs hcs
                    simp at hcs
                    subst hcs
                    left
                    have hdle := daysInMonth_le year month
                    exact isIsoDateStr_fmt date (by rw [hde]; simp; omega)
                      (by rw [hde]; simp; omega)
    · rw [if_neg h8] at h
      injection h with h
      subst h
      exact hi

theorem PInv_init : PInv initPState := by
  refine ⟨Or.inr (Or.inl rfl), ?_, ?_⟩
  · intro ds hds
    cases hds
  · intro cs hcs
    cases hcs

theorem processLine_inv (st st' : PState) (l : List Char)
    (h : processLine st l = some st') (hi : PInv st) : PInv st' := by
  rw [processLine, processTrimmed] at h
  by_cases he : rustTrim l = []
  · rw [if_pos he] at h
    injection h with h
    subst h
    exact hi
  · rw [if_neg he] at h
    cases hsp : splitAtColon (rustTrim l) with
    | none =>
      simp only [hsp] at h
      injection h with h
      subst h
      exact hi
    | some pv =>
      obtain ⟨pn, pvv⟩ := pv
      simp only [hsp] at h
      split_ifs at h
      all_goals first
        | exact handleDue_inv st st' pvv h hi
        | exact handleCreated_inv st st' pvv h hi
        | (injection h with h
           subst h
           exact ⟨by first
             | exact hi.1
             | exact Or.inl rfl
             | exact Or.inr (Or.inl rfl)
             | exact Or.inr (Or.inr rfl), hi.2.1, hi.2.2⟩)

theorem processLines_inv : ∀ (lines : List (List Char)) (st st' : PState),
    processLines st lines = some st' → PInv st → PInv st' := by
  intro lines
  induction lines with
  | nil =>
    intro st st' h hi
    rw [processLines] at h
    injection h with h
    subst h
    exact hi
  | cons l rest ih =>
    intro st st' h hi
    rw [processLines] at h
    cases hp : processLine st l with
    | none =>
      rw [hp] at h
      exact Option.noConfusion h
    | some st2 =>
      rw [hp] at h
      exact ih st2 st' h (processLine_inv st st2 l hp hi)

/-- Claim C8: every task record produced by parsing a record block has a
nonempty id (the synthesized UUID is nonempty) and a nonempty title, a
priority among exactly high, medium and low, and optional due_date and
created_at fields that, when present, hold syntactically valid calendar-date
(for created_at possibly date-time) strings. -/
theorem C8_theorem (lines : List (List Char)) (cal fresh : List Char) (hf : fresh ≠ [])
    (t : Todo) (h : parse_vtodo_from_lines lines cal fresh = some t) :
    t.id ≠ [] ∧ t.title ≠ [] ∧
    (t.priority = str "high" ∨ t.priority = str "medium" ∨ t.priority = str "low") ∧
    (∀ ds, t.due_date = some ds → isIsoDateStr ds = true) ∧
    (∀ cs, t.created_at = some cs → isIsoDateStr cs = true ∨ isIsoDateTimeStr cs = true) := by
  rw [parse_vtodo_from_lines] at h
  cases hp : processLines initPState lines with
  | none =>
    rw [hp] at h
    exact Option.noConfusion h
  | some st =>
    rw [hp] at h
    injection h with h
    subst h
    have hinv := processLines_inv lines initPState st hp PInv_init
    refine ⟨?_, ?_, hinv.1, hinv.2.1, hinv.2.2⟩
    · by_cases hid : st.id = []
      · simp only [hid, if_pos rfl]
        exact hf
      · simp only [if_neg hid]
        exact hid
    · by_cases hti : st.title = []
      · simp only [hti, if_pos rfl]
        decide
      · simp only [if_neg hti]
        exact hti

/-- Witness for C8 on a block with a UID, a SUMMARY, a DUE date and a CREATED
date-time. -/
theorem C8_witness :
    (⟨str "x", str "hi", [], false, str "medium", none, some (str "2025-06-15"),
        some (str "2025-01-01T12:00:00"), str "cal"⟩ : Todo).id ≠ [] ∧
    (⟨str "x", str "hi", [], false, str "medium", none, some (str "2025-06-15"),
        some (str "2025-01-01T12:00:00"), str "cal"⟩ : Todo).title ≠ [] ∧
    ((⟨str "x", str "hi", [], false, str "medium", none, some (str "2025-06-15"),
        some (str "2025-01-01T12:00:00"), str "cal"⟩ : Todo).priority = str "high" ∨
     (⟨str "x", str "hi", [], false, str "medium", none, some (str "2025-06-15"),
        some (str "2025-01-01T12:00:00"), str "cal"⟩ : Todo).priority = str "medium" ∨
     (⟨str "x", str "hi", [], false, str "medium", none, some (str "2025-06-15"),
        some (str "2025-01-01T12:00:00"), str "cal"⟩ : Todo).priority = str "low") ∧
    isIsoDateStr (str "2025-06-15") = true ∧
    isIsoDateTimeStr (str "2025-01-01T12:00:00") = true := by
  have h := C8_theorem
    [str "UID:x", str "SUMMARY:hi", str "DUE:20250615", str "CREATED:20250101T120000Z"]
    (str "cal") (str "u") (by decide)
    ⟨str "x", str "hi", [], false, str "medium", none, some (str "2025-06-15"),
      some (str "2025-01-01T12:00:00"), str "cal"⟩ (by decide)
  refine ⟨h.1, h.2.1, h.2.2.1, h.2.2.2.1 (str "2025-06-15") rfl, ?_⟩
  rcases h.2.2.2.2 (str "2025-01-01T12:00:00") rfl with hl | hr
  · exact absurd hl (by decide)
  · exact hr


theorem processLines_append (a b : List (List Char)) : ∀ st : PState,
    processLines st (a ++ b) = (processLines st a).bind (fun s2 => processLines s2 b) := by
  induction a with
  | nil => intro st; rfl
  | cons l rest ih =>
    intro st
    rw [List.cons_append, processLines, processLines]
    cases processLine st l with
    | none => rfl
    | some st2 => exact ih st2

theorem expand_append (a b : List Char) : expand (a ++ b) = expand a ++ expand b := by
  induction a with
  | nil => rfl
  | cons c t ih => simp [expand, ih]

theorem mem_expand {c : Char} (s : List Char) (h : c ∈ expand s) :
    c ∈ s ∨ c = '\\' ∨ c = ';' ∨ c = ',' := by
  induction s with
  | nil => cases h
  | cons x t ih =>
    rw [expand] at h
    rcases List.mem_append.mp h with h1 | h2
    · rw [expandChar] at h1
      split_ifs at h1 with hx1 hx2
      · simp at h1
        rcases h1 with e | e
        · exact Or.inr (Or.inl e)
        · exact Or.inr (Or.inr (Or.inl e))
      · simp at h1
        rcases h1 with e | e
        · exact Or.inr (Or.inl e)
        · exact Or.inr (Or.inr (Or.inr e))
      · simp at h1
        exact Or.inl (by simp [h1])
    · rcases ih h2 with h3 | h3
      · exact Or.inl (List.mem_cons_of_mem x h3)
      · exact Or.inr h3

theorem expand_ne_nil (s : List Char) (h : s ≠ []) : expand s ≠ [] := by
  cases s with
  | nil => exact absurd rfl h
  | cons c t =>
    rw [expand, expandChar]
    split_ifs <;> simp

theorem noTrailWs_expand (s : List Char) (h : noTrailWs s = true) :
    noTrailWs (expand s) = true := by
  induction s using List.reverseRecOn with
  | nil => rfl
  | append_singleton init c _ =>
    rw [expand_append]
    have hc : ∀ d, [c].getLast? = some d → isWhite d = false := by
      intro d hd
      simp at hd
      subst hd
      rw [noTrailWs, List.getLast?_concat] at h
      simpa using h
    rw [expand]
    have hne : expandChar c ++ expand [] ≠ [] := by
      rw [expandChar]
      split_ifs <;> simp
    rw [noTrailWs, List.getLast?_append_of_ne_nil _ hne]
    rw [expandChar]
    split_ifs with h1 h2
    · rfl
    · rfl
    · have := hc c (by simp)
      simp [expand, this]

theorem cleanNT_parts (s : List Char) (h : cleanNT s = true) :
    (∀ c ∈ s, cleanChar c = true) ∧ noTrailWs s = true := by
  rw [cleanNT, Bool.and_eq_true] at h
  exact ⟨fun c hc => List.all_eq_true.mp h.1 c hc, h.2⟩

theorem cleanChar_ne_nlcr {c : Char} (h : cleanChar c = true) : ¬(c = '\n') ∧ ¬(c = '\r') :=
  ⟨cleanChar_not_nl h, cleanChar_not_cr h⟩

theorem priorityRev_cases (p : List Char) :
    priorityRev p = str "1" ∨ priorityRev p = str "5" ∨ priorityRev p = str "9" := by
  rw [priorityRev]
  split_ifs
  · exact Or.inl rfl
  · exact Or.inr (Or.inl rfl)
  · exact Or.inr (Or.inr rfl)
  · exact Or.inr (Or.inl rfl)

theorem valDigits_two (a b : Char) : valDigits [a, b] = digitVal a * 10 + digitVal b := by
  simp [valDigits]
  ring

theorem valDigits_four (a b c d : Char) :
    valDigits [a, b, c, d]
      = digitVal a * 1000 + digitVal b * 100 + digitVal c * 10 + digitVal d := by
  simp [valDigits]
  ring

theorem fmtYear_ofNat (n : Nat) : fmtYear ((n : Nat) : Int) = fmt4 n := by
  rw [fmtYear, if_neg (by omega)]
  simp

theorem fmt2_pair_roundtrip (a b : Char) (ha : isDigitChar a = true) (hb : isDigitChar b = true) :
    fmt2 (digitVal a * 10 + digitVal b) = [a, b] := by
  have h := padZeros_roundtrip [a, b] (by
    intro c hc
    simp at hc
    rcases hc with e | e <;> (subst e; assumption)) (by simp)
  rw [valDigits_two] at h
  exact h

theorem fmt4_quad_roundtrip (a b c d : Char) (ha : isDigitChar a = true)
    (hb : isDigitChar b = true) (hc : isDigitChar c = true) (hd : isDigitChar d = true) :
    fmt4 (digitVal a * 1000 + digitVal b * 100 + digitVal c * 10 + digitVal d) = [a, b, c, d] := by
  have h := padZeros_roundtrip [a, b, c, d] (by
    intro x hx
    simp at hx
    rcases hx with e | e | e | e <;> (subst e; assumption)) (by simp)
  rw [valDigits_four] at h
  exact h


theorem parse_from_str_date_inv (dd : List Char) (date : RDate)
    (h : parse_from_str_date dd = some date) :
    fmtIsoDate date = dd ∧
    (∃ y : Nat, y < 10000 ∧ date.year = (y : Int)) ∧
    date.month < 100 ∧ date.day < 100 ∧
    from_ymd_opt date.year date.month date.day = some date := by
  rw [parse_from_str_date.eq_def] at h
  split at h
  next y3 y2 y1 y0 m1 m0 d1 d0 =>
    split_ifs at h with hdig
    simp only [Bool.and_eq_true] at hdig
    obtain ⟨⟨⟨⟨⟨⟨⟨h3, h2⟩, h1⟩, h0⟩, hm1⟩, hm0⟩, hd1⟩, hd0⟩ := hdig
    have hb := (from_ymd_opt_bounds _ _ _ _ h).1
    subst hb
    refine ⟨?_, ⟨digitVal y3 * 1000 + digitVal y2 * 100 + digitVal y1 * 10 + digitVal y0,
      ?_, rfl⟩, ?_, ?_, h⟩
    · show fmtYear _ ++ '-' :: fmt2 _ ++ '-' :: fmt2 _ = _
      rw [fmtYear_ofNat, fmt4_quad_roundtrip y3 y2 y1 y0 h3 h2 h1 h0,
        fmt2_pair_roundtrip m1 m0 hm1 hm0, fmt2_pair_roundtrip d1 d0 hd1 hd0]
      rfl
    · have := digitVal_le_nine h3
      have := digitVal_le_nine h2
      have := digitVal_le_nine h1
      have := digitVal_le_nine h0
      omega
    · have := digitVal_le_nine hm1
      have := digitVal_le_nine hm0
      show digitVal m1 * 10 + digitVal m0 < 100
      omega
    · have := digitVal_le_nine hd1
      have := digitVal_le_nine hd0
      show digitVal d1 * 10 + digitVal d0 < 100
      omega
  next => exact absurd h (by simp)

theorem parse_from_str_datetime_inv (ca : List Char) (dt : RDateTime)
    (h : parse_from_str_datetime ca = some dt) :
    (∃ y : Nat, y < 10000 ∧ dt.date.year = (y : Int)) ∧
    dt.date.month < 100 ∧ dt.date.day < 100 ∧
    dt.hour < 100 ∧ dt.minute < 100 ∧ dt.second < 100 ∧
    from_ymd_opt dt.date.year dt.date.month dt.date.day = some dt.date ∧
    and_hms_opt dt.date dt.hour dt.minute dt.second = some dt := by
  rw [parse_from_str_datetime.eq_def] at h
  split at h
  next y3 y2 y1 y0 m1 m0 d1 d0 h1c h0c i1 i0 s1 s0 =>
    split_ifs at h with hdig
    simp only [Bool.and_eq_true] at hdig
    obtain ⟨⟨⟨⟨⟨⟨⟨⟨⟨⟨⟨⟨⟨h3, h2⟩, h1⟩, h0⟩, hm1⟩, hm0⟩, hd1⟩, hd0⟩, hh1⟩, hh0⟩, hi1⟩,
      hi0⟩, hs1⟩, hs0⟩ := hdig
    cases hfy : from_ymd_opt
        ((digitVal y3 * 1000 + digitVal y2 * 100 + digitVal y1 * 10 + digitVal y0 : Nat) : Int)
        (digitVal m1 * 10 + digitVal m0) (digitVal d1 * 10 + digitVal d0) with
    | none => rw [hfy] at h; exact absurd h (by simp)
    | some d0v =>
      rw [hfy] at h
      simp only [Option.some_bind] at h
      have hbd := (from_ymd_opt_bounds _ _ _ _ hfy).1
      subst hbd
      have hbt := (and_hms_opt_bounds _ _ _ _ _ h).1
      subst hbt
      refine ⟨⟨digitVal y3 * 1000 + digitVal y2 * 100 + digitVal y1 * 10 + digitVal y0,
        ?_, rfl⟩, ?_, ?_, ?_, ?_, ?_, hfy, h⟩
      · have := digitVal_le_nine h3
        have := digitVal_le_nine h2
        have := digitVal_le_nine h1
        have := digitVal_le_nine h0
        omega
      · have := digitVal_le_nine hm1
        have := digitVal_le_nine hm0
        show digitVal m1 * 10 + digitVal m0 < 100
        omega
      · have := digitVal_le_nine hd1
        have := digitVal_le_nine hd0
        show digitVal d1 * 10 + digitVal d0 < 100
        omega
      · have := digitVal_le_nine hh1
        have := digitVal_le_nine hh0
        show digitVal h1c * 10 + digitVal h0c < 100
        omega
      · have := digitVal_le_nine hi1
        have := digitVal_le_nine hi0
        show digitVal i1 * 10 + digitVal i0 < 100
        omega
      · have := digitVal_le_nine hs1
        have := digitVal_le_nine hs0
        show digitVal s1 * 10 + digitVal s0 < 100
        omega
  next => exact absurd h (by simp)

theorem noTrailWs_of_all_digits (l : List Char) (h : ∀ c ∈ l, isDigitChar c = true) :
    noTrailWs l = true := by
  rw [noTrailWs]
  cases hl : l.getLast? with
  | none => rfl
  | some d =>
    have hd : d ∈ l := List.mem_of_getLast?_eq_some hl
    simp [isDigit_not_ws (h d hd)]

theorem mem_compactDate {c : Char} (d : RDate) (h : c ∈ compactDate d) :
    isDigitChar c = true := by
  rw [compactDate] at h
  rcases List.mem_append.mp h with h1 | h2
  · rcases List.mem_append.mp h1 with h3 | h4
    · exact fmt4_digits _ c h3
    · exact fmt2_digits _ c h4
  · exact fmt2_digits _ c h2

theorem mem_compactDateTime {c : Char} (dt : RDateTime) (h : c ∈ compactDateTime dt) :
    isDigitChar c = true ∨ c = 'T' ∨ c = 'Z' := by
  rw [compactDateTime] at h
  rcases List.mem_append.mp h with h1 | h2
  · rcases List.mem_append.mp h1 with h3 | h4
    · exact Or.inl (mem_compactDate dt.date h3)
    · rcases List.mem_cons.mp h4 with hT | h5
      · exact Or.inr (Or.inl hT)
      · rcases List.mem_append.mp h5 with h6 | h7
        · rcases List.mem_append.mp h6 with h8 | h9
          · exact Or.inl (fmt2_digits _ c h8)
          · exact Or.inl (fmt2_digits _ c h9)
        · exact Or.inl (fmt2_digits _ c h7)
  · simp at h2
    exact Or.inr (Or.inr h2)

theorem noTrailWs_compactDate (d : RDate) : noTrailWs (compactDate d) = true :=
  noTrailWs_of_all_digits _ (fun _ hc => mem_compactDate d hc)

theorem todoClean_parts (t : Todo) (h : todoClean t = true) :
    t.id ≠ [] ∧ cleanNT t.id = true ∧ t.title ≠ [] ∧ cleanNT t.title = true ∧
    cleanNT t.description = true ∧
    (t.priority = str "high" ∨ t.priority = str "medium" ∨ t.priority = str "low") ∧
    (∀ c, t.category = some c → cleanNT c = true) ∧
    (∀ d, t.due_date = some d → (parse_from_str_date d).isSome = true) := by
  rw [todoClean] at h
  simp only [Bool.and_eq_true, Bool.or_eq_true, Bool.not_eq_true', beq_iff_eq,
    beq_eq_false_iff_ne] at h
  obtain ⟨⟨⟨⟨⟨⟨⟨hid, hidc⟩, hti⟩, htic⟩, hdesc⟩, hpr⟩, hcat⟩, hdue⟩ := h
  refine ⟨hid, hidc, hti, htic, hdesc, ?_, ?_, ?_⟩
  · rcases hpr with (h1 | h1) | h1
    · exact Or.inl h1
    · exact Or.inr (Or.inl h1)
    · exact Or.inr (Or.inr h1)
  · intro c hc
    rw [hc] at hcat
    exact hcat
  · intro d hd
    rw [hd] at hdue
    exact hdue


theorem mem_vtodoBody (now : RDateTime) (t : Todo) (l : List Char)
    (hl : l ∈ vtodoBody now t) :
    l = str "UID:" ++ t.id ∨
    l = str "SUMMARY:" ++ escape_ical_text t.title ∨
    (t.description ≠ [] ∧ l = str "DESCRIPTION:" ++ escape_ical_text t.description) ∨
    l = str "STATUS:COMPLETED" ∨ l = str "STATUS:NEEDS-ACTION" ∨
    l = str "PRIORITY:" ++ priorityRev t.priority ∨
    (∃ c, t.category = some c ∧ l = str "CATEGORIES:" ++ escape_ical_text c) ∨
    (∃ d, l = str "DUE:" ++ compactDate d) ∨
    (∃ d, l = str "CREATED:" ++ compactDate d) ∨
    (∃ dt2, l = str "CREATED:" ++ compactDateTime dt2) ∨
    l = str "DTSTAMP:" ++ compactDateTime now := by
  rw [vtodoBody] at hl
  simp only [List.append_assoc] at hl
  rcases List.mem_append.mp hl with h | hl
  · rcases List.mem_cons.mp h with h1 | h2
    · exact Or.inl h1
    · rcases List.mem_cons.mp h2 with h3 | h4
      · exact Or.inr (Or.inl h3)
      · cases h4
  rcases List.mem_append.mp hl with h | hl
  · rw [descLines] at h
    by_cases hd : t.description = []
    · rw [if_pos hd] at h
      cases h
    · rw [if_neg hd] at h
      rcases List.mem_cons.mp h with h1 | h2
      · exact Or.inr (Or.inr (Or.inl ⟨hd, h1⟩))
      · cases h2
  rcases List.mem_append.mp hl with h | hl
  · rcases List.mem_cons.mp h with h1 | h2
    · cases hco : t.completed
      · rw [hco] at h1
        simp at h1
        exact Or.inr (Or.inr (Or.inr (Or.inr (Or.inl h1))))
      · rw [hco] at h1
        simp at h1
        exact Or.inr (Or.inr (Or.inr (Or.inl h1)))
    · cases h2
  rcases List.mem_append.mp hl with h | hl
  · rcases List.mem_cons.mp h with h1 | h2
    · exact Or.inr (Or.inr (Or.inr (Or.inr (Or.inr (Or.inl h1)))))
    · cases h2
  rcases List.mem_append.mp hl with h | hl
  · cases hcat : t.category with
    | none => rw [hcat, catLines] at h; cases h
    | some c =>
      rw [hcat, catLines] at h
      rcases List.mem_cons.mp h with h1 | h2
      · exact Or.inr (Or.inr (Or.inr (Or.inr (Or.inr (Or.inr (Or.inl ⟨c, rfl, h1⟩))))))
      · cases h2
  rcases List.mem_append.mp hl with h | hl
  · cases hdu : t.due_date with
    | none => rw [hdu, dueLines] at h; cases h
    | some d =>
      rw [hdu, dueLines] at h
      cases hpd : parse_from_str_date d with
      | none => simp only [hpd] at h; cases h
      | some date =>
        simp only [hpd] at h
        rcases List.mem_cons.mp h with h1 | h2
        · exact Or.inr (Or.inr (Or.inr (Or.inr (Or.inr (Or.inr (Or.inr (Or.inl ⟨date, h1⟩)))))))
        · cases h2
  rcases List.mem_append.mp hl with h | hl
  · cases hca : t.created_at with
    | none => rw [hca, createdLines] at h; cases h
    | some ca =>
      rw [hca, createdLines] at h
      cases hpd : parse_from_str_date ca with
      | some date =>
        simp only [hpd] at h
        rcases List.mem_cons.mp h with h1 | h2
        · exact Or.inr (Or.inr (Or.inr (Or.inr (Or.inr (Or.inr (Or.inr (Or.inr
            (Or.inl ⟨date, h1⟩))))))))
        · cases h2
      | none =>
        simp only [hpd] at h
        cases hpt : parse_from_str_datetime ca with
        | none => simp only [hpt] at h; cases h
        | some dt2 =>
          simp only [hpt] at h
          rcases List.mem_cons.mp h with h1 | h2
          · exact Or.inr (Or.inr (Or.inr (Or.inr (Or.inr (Or.inr (Or.inr (Or.inr (Or.inr
              (Or.inl ⟨dt2, h1⟩)))))))))
          · cases h2
  rcases List.mem_cons.mp hl with h1 | h2
  · exact Or.inr (Or.inr (Or.inr (Or.inr (Or.inr (Or.inr (Or.inr (Or.inr (Or.inr
      (Or.inr h1)))))))))
  · cases h2

theorem vtodoBody_not_end (now : RDateTime) (t : Todo) :
    ∀ l ∈ vtodoBody now t, rustTrim l ≠ endMarker := by
  intro l hl
  rcases mem_vtodoBody now t l hl with h|h|⟨_, h⟩|h|h|h|⟨c, _, h⟩|⟨d, h⟩|⟨d, h⟩|⟨dt2, h⟩|h
  all_goals subst h
  · exact rustTrim_ne_of_head 'U' (str "ID:" ++ t.id) (by decide) 'E' (str "ND:VTODO") (by decide)
  · exact rustTrim_ne_of_head 'S' (str "UMMARY:" ++ escape_ical_text t.title) (by decide)
      'E' (str "ND:VTODO") (by decide)
  · exact rustTrim_ne_of_head 'D' (str "ESCRIPTION:" ++ escape_ical_text t.description)
      (by decide) 'E' (str "ND:VTODO") (by decide)
  · exact rustTrim_ne_of_head 'S' (str "TATUS:COMPLETED") (by decide)
      'E' (str "ND:VTODO") (by decide)
  · exact rustTrim_ne_of_head 'S' (str "TATUS:NEEDS-ACTION") (by decide)
      'E' (str "ND:VTODO") (by decide)
  · exact rustTrim_ne_of_head 'P' (str "RIORITY:" ++ priorityRev t.priority) (by decide)
      'E' (str "ND:VTODO") (by decide)
  · exact rustTrim_ne_of_head 'C' (str "ATEGORIES:" ++ escape_ical_text c) (by decide)
      'E' (str "ND:VTODO") (by decide)
  · exact rustTrim_ne_of_head 'D' (str "UE:" ++ compactDate d) (by decide)
      'E' (str "ND:VTODO") (by decide)
  · exact rustTrim_ne_of_head 'C' (str "REATED:" ++ compactDate d) (by decide)
      'E' (str "ND:VTODO") (by decide)
  · exact rustTrim_ne_of_head 'C' (str "REATED:" ++ compactDateTime dt2) (by decide)
      'E' (str "ND:VTODO") (by decide)
  · exact rustTrim_ne_of_head 'D' (str "TSTAMP:" ++ compactDateTime now) (by decide)
      'E' (str "ND:VTODO") (by decide)

theorem safe_append (a b : List Char) (ha : '\n' ∉ a ∧ '\r' ∉ a)
    (hb : ∀ c ∈ b, ¬(c = '\n') ∧ ¬(c = '\r')) : '\n' ∉ a ++ b ∧ '\r' ∉ a ++ b := by
  constructor <;> intro hm
  · rcases List.mem_append.mp hm with h | h
    · exact ha.1 h
    · exact (hb _ h).1 rfl
  · rcases List.mem_append.mp hm with h | h
    · exact ha.2 h
    · exact (hb _ h).2 rfl

theorem expand_val_safe (v : List Char) (hv : ∀ c ∈ v, cleanChar c = true) :
    ∀ c ∈ expand v, ¬(c = '\n') ∧ ¬(c = '\r') := by
  intro c hc
  rcases mem_expand _ hc with h1 | h1 | h1 | h1
  · exact cleanChar_ne_nlcr (hv c h1)
  all_goals subst h1
  · exact ⟨by decide, by decide⟩
  · exact ⟨by decide, by decide⟩
  · exact ⟨by decide, by decide⟩

theorem compactDate_safe (d : RDate) : ∀ c ∈ compactDate d, ¬(c = '\n') ∧ ¬(c = '\r') :=
  fun _ hc => cleanChar_ne_nlcr (isDigit_clean (mem_compactDate d hc))

theorem compactDateTime_safe (dt : RDateTime) :
    ∀ c ∈ compactDateTime dt, ¬(c = '\n') ∧ ¬(c = '\r') := by
  intro c hc
  rcases mem_compactDateTime dt hc with h | h | h
  · exact cleanChar_ne_nlcr (isDigit_clean h)
  · subst h; exact ⟨by decide, by decide⟩
  · subst h; exact ⟨by decide, by decide⟩

theorem vtodoLines_safe (now : RDateTime) (t : Todo) (ht : todoClean t = true) :
    ∀ l ∈ vtodoLines now t, '\n' ∉ l ∧ '\r' ∉ l := by
  obtain ⟨_, hidc, _, htic, hdesc, _, hcat, _⟩ := todoClean_parts t ht
  intro l hl
  rw [vtodoLines] at hl
  rcases List.mem_cons.mp hl with h | hl2
  · subst h; exact ⟨by decide, by decide⟩
  rcases List.mem_append.mp hl2 with hb | he
  swap
  · simp only [List.mem_singleton] at he
    subst he; exact ⟨by decide, by decide⟩
  rcases mem_vtodoBody now t l hb with h|h|⟨_, h⟩|h|h|h|⟨c, hc, h⟩|⟨d, h⟩|⟨d, h⟩|⟨dt2, h⟩|h
  all_goals subst h
  · exact safe_append _ _ ⟨by decide, by decide⟩
      (fun c hc => cleanChar_ne_nlcr ((cleanNT_parts _ hidc).1 c hc))
  · rw [escape_eq_expand _ (cleanNT_parts _ htic).1]
    exact safe_append _ _ ⟨by decide, by decide⟩ (expand_val_safe _ (cleanNT_parts _ htic).1)
  · rw [escape_eq_expand _ (cleanNT_parts _ hdesc).1]
    exact safe_append _ _ ⟨by decide, by decide⟩ (expand_val_safe _ (cleanNT_parts _ hdesc).1)
  · exact ⟨by decide, by decide⟩
  · exact ⟨by decide, by decide⟩
  · rcases priorityRev_cases t.priority with h | h | h <;> rw [h] <;> exact ⟨by decide, by decide⟩
  · have hcc := hcat c hc
    rw [escape_eq_expand _ (cleanNT_parts _ hcc).1]
    exact safe_append _ _ ⟨by decide, by decide⟩ (expand_val_safe _ (cleanNT_parts _ hcc).1)
  · exact safe_append _ _ ⟨by decide, by decide⟩ (compactDate_safe d)
  · exact safe_append _ _ ⟨by decide, by decide⟩ (compactDate_safe d)
  · exact safe_append _ _ ⟨by decide, by decide⟩ (compactDateTime_safe dt2)
  · exact safe_append _ _ ⟨by decide, by decide⟩ (compactDateTime_safe now)


theorem processLines_cons_some (st st2 : PState) (l : List Char) (rest : List (List Char))
    (h : processLine st l = some st2) :
    processLines st (l :: rest) = processLines st2 rest := by
  rw [processLines, h]

theorem seg_desc (i ti pr : List Char) (co : Bool) (ca du cr : Option (List Char))
    (v : List Char) (hv : cleanNT v = true) :
    processLines ⟨i, ti, [], co, pr, ca, du, cr⟩ (descLines v)
      = some ⟨i, ti, v, co, pr, ca, du, cr⟩ := by
  obtain ⟨hall, hnt⟩ := cleanNT_parts v hv
  rw [descLines]
  by_cases he : v = []
  · rw [if_pos he, he]
    rfl
  · rw [if_neg he]
    have hesc : noTrailWs (escape_ical_text v) = true := by
      rw [escape_eq_expand v hall]
      exact noTrailWs_expand v hnt
    rw [processLines_cons_some _ _ _ _ (processLine_DESCRIPTION _ _ hesc)]
    rw [unescape_escape_clean v hall]
    rfl

theorem seg_status (i ti de pr : List Char) (ca du cr : Option (List Char)) (co : Bool) :
    processLines ⟨i, ti, de, false, pr, ca, du, cr⟩
        [if co then str "STATUS:COMPLETED" else str "STATUS:NEEDS-ACTION"]
      = some ⟨i, ti, de, co, pr, ca, du, cr⟩ := by
  cases co
  · rw [if_neg (by simp)]
    rw [show str "STATUS:NEEDS-ACTION" = str "STATUS:" ++ str "NEEDS-ACTION" from rfl]
    rw [processLines_cons_some _ _ _ _ (processLine_STATUS _ _ (by decide))]
    rfl
  · rw [if_pos (by simp)]
    rw [show str "STATUS:COMPLETED" = str "STATUS:" ++ str "COMPLETED" from rfl]
    rw [processLines_cons_some _ _ _ _ (processLine_STATUS _ _ (by decide))]
    rfl

theorem seg_prio (i ti de : List Char) (co : Bool) (ca du cr : Option (List Char))
    (p : List Char) (hp : p = str "high" ∨ p = str "medium" ∨ p = str "low") :
    processLines ⟨i, ti, de, co, str "medium", ca, du, cr⟩ [str "PRIORITY:" ++ priorityRev p]
      = some ⟨i, ti, de, co, p, ca, du, cr⟩ := by
  have hnw : noTrailWs (priorityRev p) = true := by
    rcases priorityRev_cases p with h | h | h <;> rw [h] <;> decide
  rw [processLines_cons_some _ _ _ _ (processLine_PRIORITY _ _ hnw)]
  rcases hp with h | h | h <;> subst h <;> rfl

theorem seg_cat (i ti de pr : List Char) (co : Bool) (du cr : Option (List Char))
    (o : Option (List Char)) (ho : ∀ c, o = some c → cleanNT c = true) :
    processLines ⟨i, ti, de, co, pr, none, du, cr⟩ (catLines o)
      = some ⟨i, ti, de, co, pr, o, du, cr⟩ := by
  cases o with
  | none => rfl
  | some c =>
    obtain ⟨hall, hnt⟩ := cleanNT_parts c (ho c rfl)
    have hesc : noTrailWs (escape_ical_text c) = true := by
      rw [escape_eq_expand c hall]
      exact noTrailWs_expand c hnt
    show processLines _ [str "CATEGORIES:" ++ escape_ical_text c] = _
    rw [processLines_cons_some _ _ _ _ (processLine_CATEGORIES _ _ hesc)]
    rw [unescape_escape_clean c hall]
    rfl

theorem seg_due (i ti de pr : List Char) (co : Bool) (ca cr : Option (List Char))
    (o : Option (List Char)) (ho : ∀ d, o = some d → (parse_from_str_date d).isSome = true) :
    processLines ⟨i, ti, de, co, pr, ca, none, cr⟩ (dueLines o)
      = some ⟨i, ti, de, co, pr, ca, o, cr⟩ := by
  cases o with
  | none => rfl
  | some dd =>
    have hps : (parse_from_str_date dd).isSome = true := ho dd rfl
    cases hpd : parse_from_str_date dd with
    | none => rw [hpd] at hps; exact absurd hps (by decide)
    | some date =>
      obtain ⟨hfmt, ⟨y, hy, hyear⟩, hm, hd, hopt⟩ := parse_from_str_date_inv dd date hpd
      cases date with
      | mk yy mm dd2 =>
        simp only at hyear hm hd
        subst hyear
        rw [dueLines, hpd]
        show processLines _ [str "DUE:" ++ compactDate ⟨((y : Nat) : Int), mm, dd2⟩] = _
        have hshape : compactDate ⟨((y : Nat) : Int), mm, dd2⟩
            = fmt4 y ++ (fmt2 mm ++ fmt2 dd2) := by
          rw [compactDate]
          simp [Int.toNat_ofNat, List.append_assoc]
        have hdue : handleDue (⟨i, ti, de, co, pr, ca, none, cr⟩ : PState)
            (compactDate ⟨((y : Nat) : Int), mm, dd2⟩)
            = some ⟨i, ti, de, co, pr, ca, some dd, cr⟩ := by
          rw [hshape, handleDue_compact _ y mm dd2 hy hm hd hopt]
          rw [show fmtIsoDate ⟨((y : Nat) : Int), mm, dd2⟩ = dd from hfmt]
        rw [processLines_cons_some _ _ _ _
          ((processLine_DUE _ _ (noTrailWs_compactDate _)).trans hdue)]
        rfl

theorem seg_created (i ti de pr : List Char) (co : Bool) (ca du : Option (List Char))
    (o : Option (List Char)) :
    ∃ v : Option (List Char),
      processLines ⟨i, ti, de, co, pr, ca, du, none⟩ (createdLines o)
        = some ⟨i, ti, de, co, pr, ca, du, v⟩ := by
  cases o with
  | none => exact ⟨none, rfl⟩
  | some ca2 =>
    rw [createdLines]
    cases hpd : parse_from_str_date ca2 with
    | some date =>
      obtain ⟨hfmt, ⟨y, hy, hyear⟩, hm, hd, hopt⟩ := parse_from_str_date_inv ca2 date hpd
      cases date with
      | mk yy mm dd2 =>
        simp only at hyear hm hd
        subst hyear
        refine ⟨some (fmtIsoDate ⟨((y : Nat) : Int), mm, dd2⟩), ?_⟩
        show processLines _ [str "CREATED:" ++ compactDate ⟨((y : Nat) : Int), mm, dd2⟩] = _
        have hshape : compactDate ⟨((y : Nat) : Int), mm, dd2⟩
            = fmt4 y ++ (fmt2 mm ++ fmt2 dd2) := by
          rw [compactDate]
          simp [Int.toNat_ofNat, List.append_assoc]
        have hcr : handleCreated (⟨i, ti, de, co, pr, ca, du, none⟩ : PState)
            (compactDate ⟨((y : Nat) : Int), mm, dd2⟩)
            = some ⟨i, ti, de, co, pr, ca, du,
                some (fmtIsoDate ⟨((y : Nat) : Int), mm, dd2⟩)⟩ := by
          rw [hshape, handleCreated_date8 _ y mm dd2 hy hm hd hopt]
        rw [processLines_cons_some _ _ _ _
          ((processLine_CREATED _ _ (noTrailWs_compactDate _)).trans hcr)]
        rfl
    | none =>
      cases hpt : parse_from_str_datetime ca2 with
      | none => exact ⟨none, rfl⟩
      | some dt2 =>
        obtain ⟨⟨y, hy, hyear⟩, hm, hd, hh, hmi, hs, hopt, hhms⟩ :=
          parse_from_str_datetime_inv ca2 dt2 hpt
        cases dt2 with
        | mk d0 hh2 mm2 ss2 =>
          cases d0 with
          | mk yy dmo dda =>
            simp only at hyear hm hd hh hmi hs hopt hhms
            subst hyear
            refine ⟨some (fmtIsoDateTime ⟨⟨((y : Nat) : Int), dmo, dda⟩, hh2, mm2, ss2⟩), ?_⟩
            show processLines _
              [str "CREATED:" ++ compactDateTime ⟨⟨((y : Nat) : Int), dmo, dda⟩, hh2, mm2, ss2⟩]
              = _
            have hcr : handleCreated (⟨i, ti, de, co, pr, ca, du, none⟩ : PState)
                (compactDateTime ⟨⟨((y : Nat) : Int), dmo, dda⟩, hh2, mm2, ss2⟩)
                = some ⟨i, ti, de, co, pr, ca, du,
                    some (fmtIsoDateTime ⟨⟨((y : Nat) : Int), dmo, dda⟩, hh2, mm2, ss2⟩)⟩ := by
              rw [compactDateTime_shape]
              exact handleCreated_datetime _ y dmo dda hh2 mm2 ss2 hy hm hd hh hmi hs hopt hhms
            rw [processLines_cons_some _ _ _ _
              ((processLine_CREATED _ _ (noTrailWs_compactDateTime _)).trans hcr)]
            rfl

theorem seg_dtstamp (i ti de pr : List Char) (co : Bool) (ca du cr : Option (List Char))
    (now : RDateTime) (hn : validNow now = true) :
    processLines ⟨i, ti, de, co, pr, ca, du, cr⟩ [str "DTSTAMP:" ++ compactDateTime now]
      = some ⟨i, ti, de, co, pr, ca, du, some (fmtIsoDateTime now)⟩ := by
  cases now with
  | mk d0 hh mm ss =>
    cases d0 with
    | mk yy mo dd =>
      rw [validNow] at hn
      simp only [Bool.and_eq_true, decide_eq_true_eq] at hn
      obtain ⟨⟨⟨⟨hy0, hy9⟩, hmo1, hmo2⟩, hd1, hd2⟩, ⟨hh23, hmm59⟩, hss59⟩ := hn
      obtain ⟨y, rfl⟩ : ∃ y : Nat, yy = ((y : Nat) : Int) :=
        ⟨yy.toNat, (Int.toNat_of_nonneg hy0).symm⟩
      have hy : y < 10000 := by
        have : ((y : Nat) : Int) ≤ 9999 := hy9
        omega
      have hmo : mo < 100 := by omega
      have hdd : dd < 100 := by
        have := daysInMonth_le ((y : Nat) : Int) mo
        omega
      have hymd : from_ymd_opt ((y : Nat) : Int) mo dd = some ⟨((y : Nat) : Int), mo, dd⟩ := by
        rw [from_ymd_opt, if_pos ⟨hmo1, hmo2, hd1, hd2⟩]
      have hhms : and_hms_opt ⟨((y : Nat) : Int), mo, dd⟩ hh mm ss
          = some ⟨⟨((y : Nat) : Int), mo, dd⟩, hh, mm, ss⟩ := by
        rw [and_hms_opt, if_pos ⟨hh23, hmm59, hss59⟩]
      have hcr : handleCreated (⟨i, ti, de, co, pr, ca, du, cr⟩ : PState)
          (compactDateTime ⟨⟨((y : Nat) : Int), mo, dd⟩, hh, mm, ss⟩)
          = some ⟨i, ti, de, co, pr, ca, du,
              some (fmtIsoDateTime ⟨⟨((y : Nat) : Int), mo, dd⟩, hh, mm, ss⟩)⟩ := by
        rw [compactDateTime_shape]
        exact handleCreated_datetime _ y mo dd hh mm ss hy hmo hdd (by omega) (by omega)
          (by omega) hymd hhms
      rw [processLines_cons_some _ _ _ _
        ((processLine_DTSTAMP _ _ (noTrailWs_compactDateTime _)).trans hcr)]
      rfl


theorem processLines_vtodoBody (now : RDateTime) (t : Todo)
    (ht : todoClean t = true) (hn : validNow now = true) :
    processLines initPState (vtodoBody now t)
      = some ⟨t.id, t.title, t.description, t.completed, t.priority, t.category,
          t.due_date, some (fmtIsoDateTime now)⟩ := by
  obtain ⟨hid, hidc, hti, htic, hdesc, hpr, hcat, hdue⟩ := todoClean_parts t ht
  obtain ⟨hidall, hidnt⟩ := cleanNT_parts _ hidc
  obtain ⟨htiall, htint⟩ := cleanNT_parts _ htic
  have h1 : processLines initPState
      [str "UID:" ++ t.id, str "SUMMARY:" ++ escape_ical_text t.title]
      = some ⟨t.id, t.title, [], false, str "medium", none, none, none⟩ := by
    rw [processLines_cons_some _ _ _ _ (processLine_UID initPState t.id hidnt)]
    have hesc : noTrailWs (escape_ical_text t.title) = true := by
      rw [escape_eq_expand _ htiall]
      exact noTrailWs_expand _ htint
    rw [processLines_cons_some _ _ _ _ (processLine_SUMMARY _ _ hesc)]
    rw [unescape_escape_clean _ htiall]
    rfl
  obtain ⟨v, h7⟩ := seg_created t.id t.title t.description t.priority t.completed
    t.category t.due_date t.created_at
  rw [vtodoBody]
  simp only [List.append_assoc]
  rw [processLines_append, h1]
  simp only [Option.some_bind]
  rw [processLines_append, seg_desc t.id t.title (str "medium") false none none none
    t.description hdesc]
  simp only [Option.some_bind]
  rw [processLines_append, seg_status t.id t.title t.description (str "medium")
    none none none t.completed]
  simp only [Option.some_bind]
  rw [processLines_append, seg_prio t.id t.title t.description t.completed none none none
    t.priority hpr]
  simp only [Option.some_bind]
  rw [processLines_append, seg_cat t.id t.title t.description t.priority t.completed
    none none t.category hcat]
  simp only [Option.some_bind]
  rw [processLines_append, seg_due t.id t.title t.description t.priority t.completed
    t.category none t.due_date hdue]
  simp only [Option.some_bind]
  rw [processLines_append, h7]
  simp only [Option.some_bind]
  exact seg_dtstamp t.id t.title t.description t.priority t.completed t.category
    t.due_date v now hn

theorem parse_vtodoBody (now : RDateTime) (t : Todo) (cal fresh : List Char)
    (ht : todoClean t = true) (hn : validNow now = true) :
    parse_vtodo_from_lines (vtodoBody now t) cal fresh = some (roundTrip t now cal) := by
  obtain ⟨hid, _, hti, _⟩ := todoClean_parts t ht
  rw [parse_vtodo_from_lines, processLines_vtodoBody now t ht hn]
  simp only [Option.map_some']
  rw [if_neg hid, if_neg hti]
  rfl


theorem scanBlocks_header (rest : List (List Char)) :
    scanBlocks none (headerLines ++ rest) = scanBlocks none rest := by
  rw [headerLines]
  rw [show ([str "BEGIN:VCALENDAR", str "VERSION:2.0",
      str "PRODID:-//Todo Calendar//Todo Calendar//EN", str "CALSCALE:GREGORIAN"]
        : List (List Char)) ++ rest
    = str "BEGIN:VCALENDAR" :: (str "VERSION:2.0"
        :: (str "PRODID:-//Todo Calendar//Todo Calendar//EN"
        :: (str "CALSCALE:GREGORIAN" :: rest))) from rfl]
  rw [scanBlocks_skip _ _ (by decide), scanBlocks_skip _ _ (by decide),
    scanBlocks_skip _ _ (by decide), scanBlocks_skip _ _ (by decide)]

theorem scanBlocks_todosAux (now : RDateTime) (todos : List Todo)
    (rest : List (List Char)) :
    scanBlocks none ((todos.map (vtodoLines now)).flatten ++ rest)
      = todos.map (vtodoBody now) ++ scanBlocks none rest := by
  induction todos with
  | nil => simp
  | cons t ts ih =>
    rw [List.map_cons, List.flatten_cons, List.append_assoc, vtodoLines]
    rw [show (beginMarker :: vtodoBody now t ++ [endMarker])
          ++ ((ts.map (vtodoLines now)).flatten ++ rest)
        = beginMarker :: (vtodoBody now t
          ++ (endMarker :: ((ts.map (vtodoLines now)).flatten ++ rest))) from by simp]
    rw [scanBlocks_begin _ _ (by decide)]
    rw [scanBlocks_inside (vtodoBody now t) (vtodoBody_not_end now t) endMarker
      ((ts.map (vtodoLines now)).flatten ++ rest) (by decide) []]
    rw [ih]
    simp

theorem parseBlocks_roundTrip (now : RDateTime) (cal : List Char) (fresh : Nat → List Char)
    (hn : validNow now = true) :
    ∀ (todos : List Todo) (i : Nat), (∀ t ∈ todos, todoClean t = true) →
      parseBlocks cal fresh i (todos.map (vtodoBody now))
        = some (todos.map (fun t => roundTrip t now cal)) := by
  intro todos
  induction todos with
  | nil => intro i _; rfl
  | cons t ts ih =>
    intro i ht
    rw [List.map_cons, List.map_cons, parseBlocks]
    rw [parse_vtodoBody now t cal (fresh i) (ht t (List.mem_cons_self t ts)) hn]
    rw [ih (i + 1) (fun x hx => ht x (List.mem_cons_of_mem t hx))]
    rfl

/-- Claim C3: the specification asserts that for well-formed records the
serialize-parse round trip reproduces id, title, completed, priority,
category, due_date, and also created_at at second precision when a time
component is present.  The last part is false: the serializer emits a DTSTAMP
line carrying the serialization instant after the CREATED line, both lines
assign the same created_at field, and the later line wins, so the parsed
created_at is the serialization instant, not the stored creation stamp.  A
record created at 2025-01-01T12:00:00 and saved at 2030-01-02T03:04:05 comes
back with the latter stamp. -/
theorem C3_counterexample :
    load_todos_from_calendar
        (save_todos_to_calendar
          [{ id := str "a", title := str "T", description := [], completed := false,
             priority := str "medium", category := none, due_date := none,
             created_at := some (str "2025-01-01T12:00:00"), calendar_name := str "c" }]
          ⟨⟨2030, 1, 2⟩, 3, 4, 5⟩)
        (str "c") (fun _ => str "u")
      = some [{ id := str "a", title := str "T", description := [], completed := false,
                priority := str "medium", category := none, due_date := none,
                created_at := some (str "2030-01-02T03:04:05"), calendar_name := str "c" }] ∧
    some (str "2030-01-02T03:04:05") ≠ some (str "2025-01-01T12:00:00") :=
  ⟨by decide, by decide⟩

/-- Claim C3 (amended): for every record list whose fields are well-formed
(nonempty clean id and title, clean description and category, priority one of
the three buckets, due date in the `%Y-%m-%d` shape the serializer accepts)
and every in-range serialization instant, parsing the serialized calendar
reproduces every record's id, title, description, completed, priority,
category and due_date exactly, while created_at is replaced by the
serialization instant and the calendar name by the loaded calendar's name. -/
theorem C3_theorem (todos : List Todo) (now : RDateTime) (cal : List Char)
    (fresh : Nat → List Char) (ht : ∀ t ∈ todos, todoClean t = true)
    (hn : validNow now = true) :
    load_todos_from_calendar (save_todos_to_calendar todos now) cal fresh
      = some (todos.map (fun t => roundTrip t now cal)) := by
  have hsafe : ∀ l ∈ headerLines ++ ((todos.map (vtodoLines now)).flatten
      ++ [str "END:VCALENDAR"]), '\n' ∉ l ∧ '\r' ∉ l := by
    intro l hl
    rcases List.mem_append.mp hl with h1 | h2
    · rw [headerLines] at h1
      rcases List.mem_cons.mp h1 with rfl | h1
      · exact ⟨by decide, by decide⟩
      rcases List.mem_cons.mp h1 with rfl | h1
      · exact ⟨by decide, by decide⟩
      rcases List.mem_cons.mp h1 with rfl | h1
      · exact ⟨by decide, by decide⟩
      rcases List.mem_cons.mp h1 with rfl | h1
      · exact ⟨by decide, by decide⟩
      cases h1
    · rcases List.mem_append.mp h2 with h3 | h4
      · rcases List.mem_flatten.mp h3 with ⟨blk, hblk, hlblk⟩
        rcases List.mem_map.mp hblk with ⟨t, htm, rfl⟩
        exact vtodoLines_safe now t (ht t htm) l hlblk
      · rcases List.mem_cons.mp h4 with rfl | h5
        · exact ⟨by decide, by decide⟩
        · cases h5
  rw [load_todos_from_calendar, save_todos_to_calendar]
  simp only [List.append_assoc]
  rw [rustLines_joinCRLF _ hsafe]
  rw [scanBlocks_header]
  rw [scanBlocks_todosAux now todos [str "END:VCALENDAR"]]
  rw [show scanBlocks none [str "END:VCALENDAR"] = [] from by decide]
  rw [List.append_nil]
  exact parseBlocks_roundTrip now cal fresh hn todos 0 ht

/-- Witness for C3 at a fully populated record: every field well-formed, the
due date in canonical form, and a dated-and-timed creation stamp that the
round trip replaces by the serialization instant. -/
theorem C3_witness :
    load_todos_from_calendar
        (save_todos_to_calendar
          [{ id := str "id-1", title := str "Call Bob; ok", description := str "d",
             completed := true, priority := str "low", category := some (str "work"),
             due_date := some (str "2025-06-15"),
             created_at := some (str "2025-01-01T12:00:00"), calendar_name := str "old" }]
          ⟨⟨2030, 1, 2⟩, 3, 4, 5⟩)
        (str "cal") (fun _ => str "u")
      = some [roundTrip
          { id := str "id-1", title := str "Call Bob; ok", description := str "d",
            completed := true, priority := str "low", category := some (str "work"),
            due_date := some (str "2025-06-15"),
            created_at := some (str "2025-01-01T12:00:00"), calendar_name := str "old" }
          ⟨⟨2030, 1, 2⟩, 3, 4, 5⟩ (str "cal")] :=
  C3_theorem
    [{ id := str "id-1", title := str "Call Bob; ok", description := str "d",
       completed := true, priority := str "low", category := some (str "work"),
       due_date := some (str "2025-06-15"),
       created_at := some (str "2025-01-01T12:00:00"), calendar_name := str "old" }]
    ⟨⟨2030, 1, 2⟩, 3, 4, 5⟩ (str "cal") (fun _ => str "u") (by decide) (by decide)

end ICal






